import Mathlib

/-!
# CHIP-8 toolchain: descriptor table, decoder and two-pass assembler

A shallow embedding of `include/chip8.h`, `src/chip8.c` (the decoder) and
`src/chip8c.c` (the assembler), followed by theorems about them.

Conventions of the embedding

* C strings are `List Char` (the characters before the terminating NUL); a
  `NULL` pointer argument is `none`.
* `uint16_t` / `uint8_t` values are `Nat` with an explicit `% 65536` / `% 256`
  at every store that converts; `long` is `Int` (64 bit, LP64).
* `strtol` belongs to the C library.  It is modelled after ISO C 7.22.1.4.
  Whether `errno` is set when no digit could be converted is left open by
  ISO C and POSIX ("may fail"): glibc leaves `errno` untouched, the BSD
  family sets `EINVAL`.  That choice is the parameter `einval` below.
* The symbol table comes from `realloc` and is not initialised.  What it held is the
  parameter `uninit` of `parse`; it matters for a label of exactly 30 characters, which
  `strncpy(.., 30)` stores without a NUL.
* `strip` is embedded twice: as the string it returns (`strip`), and as a run on
  memory (`stripRun`) that lists every dereference with its position relative to
  the first character of the line; memory is the list of cells in front of the
  pointer and the list of cells from the pointer on.
-/

namespace Chip8

/-! ## include/chip8.h -/

/-- The enum `chip8_operator`. -/
inductive chip8_operator where
  | CHIP8_OPR_IX
  | CHIP8_OPR_DR
  deriving DecidableEq, Repr

/-- The enum `chip8_operands`, constructors in declaration order. -/
inductive chip8_operands where
  | CHIP8_OP_NONE
  | CHIP8_OP_REG8
  | CHIP8_OP_REG4
  | CHIP8_OP_REG0
  | CHIP8_OP_DT
  | CHIP8_OP_ST
  | CHIP8_OP_IX
  | CHIP8_OP_IXR
  | CHIP8_OP_BCD
  | CHIP8_OP_SPRITE
  | CHIP8_OP_HF
  | CHIP8_OP_NIBBLE
  | CHIP8_OP_BYTE
  | CHIP8_OP_SLAB
  | CHIP8_OP_NULL
  | CHIP8_OP_KEY
  deriving DecidableEq, Repr

open chip8_operator chip8_operands

def CHIP8_OP_CLS : Nat := 0x00E0
def CHIP8_OP_RET : Nat := 0x00EE
def CHIP8_OP_SCR : Nat := 0x00FB
def CHIP8_OP_SCL : Nat := 0x00FC
def CHIP8_OP_EXIT : Nat := 0x00FD
def CHIP8_OP_LOW : Nat := 0x00FE
def CHIP8_OP_HIGH : Nat := 0x00FF
def CHIP8_OP_SCD : Nat := 0x00C0
def CHIP8_OP_JP : Nat := 0x1000
def CHIP8_OP_CALL : Nat := 0x2000
def CHIP8_OP_LD_ADDR : Nat := 0xA000
def CHIP8_OP_JP_V0 : Nat := 0xB000
def CHIP8_OP_SE_BYTE : Nat := 0x3000
def CHIP8_OP_SNE_BYTE : Nat := 0x4000
def CHIP8_OP_LD_BYTE : Nat := 0x6000
def CHIP8_OP_ADD_BYTE : Nat := 0x7000
def CHIP8_OP_RND_BYTE : Nat := 0xC000
def CHIP8_OP_SE_REG : Nat := 0x5000
def CHIP8_OP_LD_REG : Nat := 0x8000
def CHIP8_OP_OR : Nat := 0x8001
def CHIP8_OP_AND : Nat := 0x8002
def CHIP8_OP_XOR : Nat := 0x8003
def CHIP8_OP_ADD_REG : Nat := 0x8004
def CHIP8_OP_SUB : Nat := 0x8005
def CHIP8_OP_SHR : Nat := 0x8006
def CHIP8_OP_SUBN : Nat := 0x8007
def CHIP8_OP_SHL : Nat := 0x800E
def CHIP8_OP_SNE_REG : Nat := 0x9000
def CHIP8_OP_SKP : Nat := 0xE09E
def CHIP8_OP_SKNP : Nat := 0xE0A1
def CHIP8_OP_LD_DT : Nat := 0xF007
def CHIP8_OP_LD_KEY : Nat := 0xF00A
def CHIP8_OP_LD_REG_DT : Nat := 0xF015
def CHIP8_OP_LD_REG_ST : Nat := 0xF018
def CHIP8_OP_ADD_REG_IX : Nat := 0xF01E
def CHIP8_OP_LD_SPRITE : Nat := 0xF029
def CHIP8_OP_LDS_BCD : Nat := 0xF033
def CHIP8_OP_LDS_REGS : Nat := 0xF055
def CHIP8_OP_LD_REGS : Nat := 0xF065
def CHIP8_OP_DRW_EXT : Nat := 0xD000
def CHIP8_OP_DRW_NIBBLE : Nat := 0xD000
def CHIP8_OP_DB : Nat := 0x0000

def CHIP8_OP_MASK_WRD : Nat := 0xFFFF
def CHIP8_OP_MASK_GSN : Nat := 0xF000
def CHIP8_OP_MASK_GSB : Nat := 0xFF00
def CHIP8_OP_MASK_GSS : Nat := 0xFFF0
def CHIP8_OP_MASK_EXT : Nat := 0xF00F
def CHIP8_OP_MASK_EXX : Nat := 0xF0FF

/-- The struct `chip8_operations`: one row of the descriptor table. -/
structure chip8_operations where
  mnemonic : List Char
  opcode : Nat
  mask : Nat
  opr : chip8_operator
  operands : List chip8_operands
  deriving DecidableEq, Repr

/-- The table `optab`, rows in source order.  The terminating sentinel row
(`mnemonic == NULL`) is the end of the list. -/
def optab : List chip8_operations := [
  ⟨['C','L','S'], CHIP8_OP_CLS, CHIP8_OP_MASK_WRD, CHIP8_OPR_IX, [CHIP8_OP_NONE, CHIP8_OP_NONE, CHIP8_OP_NONE]⟩,
  ⟨['R','E','T'], CHIP8_OP_RET, CHIP8_OP_MASK_WRD, CHIP8_OPR_IX, [CHIP8_OP_NONE, CHIP8_OP_NONE, CHIP8_OP_NONE]⟩,
  ⟨['S','C','R'], CHIP8_OP_SCR, CHIP8_OP_MASK_WRD, CHIP8_OPR_IX, [CHIP8_OP_NONE, CHIP8_OP_NONE, CHIP8_OP_NONE]⟩,
  ⟨['S','C','L'], CHIP8_OP_SCL, CHIP8_OP_MASK_WRD, CHIP8_OPR_IX, [CHIP8_OP_NONE, CHIP8_OP_NONE, CHIP8_OP_NONE]⟩,
  ⟨['E','X','I','T'], CHIP8_OP_EXIT, CHIP8_OP_MASK_WRD, CHIP8_OPR_IX, [CHIP8_OP_NONE, CHIP8_OP_NONE, CHIP8_OP_NONE]⟩,
  ⟨['L','O','W'], CHIP8_OP_LOW, CHIP8_OP_MASK_WRD, CHIP8_OPR_IX, [CHIP8_OP_NONE, CHIP8_OP_NONE, CHIP8_OP_NONE]⟩,
  ⟨['H','I','G','H'], CHIP8_OP_HIGH, CHIP8_OP_MASK_WRD, CHIP8_OPR_IX, [CHIP8_OP_NONE, CHIP8_OP_NONE, CHIP8_OP_NONE]⟩,
  ⟨['S','C','D'], CHIP8_OP_SCD, CHIP8_OP_MASK_GSS, CHIP8_OPR_IX, [CHIP8_OP_NIBBLE, CHIP8_OP_NONE, CHIP8_OP_NONE]⟩,
  ⟨['J','P'], CHIP8_OP_JP, CHIP8_OP_MASK_GSN, CHIP8_OPR_IX, [CHIP8_OP_SLAB, CHIP8_OP_NONE, CHIP8_OP_NONE]⟩,
  ⟨['C','A','L','L'], CHIP8_OP_CALL, CHIP8_OP_MASK_GSN, CHIP8_OPR_IX, [CHIP8_OP_SLAB, CHIP8_OP_NONE, CHIP8_OP_NONE]⟩,
  ⟨['L','D'], CHIP8_OP_LD_ADDR, CHIP8_OP_MASK_GSN, CHIP8_OPR_IX, [CHIP8_OP_IX, CHIP8_OP_SLAB, CHIP8_OP_NONE]⟩,
  ⟨['J','P'], CHIP8_OP_JP_V0, CHIP8_OP_MASK_GSN, CHIP8_OPR_IX, [CHIP8_OP_REG0, CHIP8_OP_SLAB, CHIP8_OP_NONE]⟩,
  ⟨['S','E'], CHIP8_OP_SE_BYTE, CHIP8_OP_MASK_GSN, CHIP8_OPR_IX, [CHIP8_OP_REG8, CHIP8_OP_BYTE, CHIP8_OP_NONE]⟩,
  ⟨['S','N','E'], CHIP8_OP_SNE_BYTE, CHIP8_OP_MASK_GSN, CHIP8_OPR_IX, [CHIP8_OP_REG8, CHIP8_OP_BYTE, CHIP8_OP_NONE]⟩,
  ⟨['L','D'], CHIP8_OP_LD_BYTE, CHIP8_OP_MASK_GSN, CHIP8_OPR_IX, [CHIP8_OP_REG8, CHIP8_OP_BYTE, CHIP8_OP_NONE]⟩,
  ⟨['A','D','D'], CHIP8_OP_ADD_BYTE, CHIP8_OP_MASK_GSN, CHIP8_OPR_IX, [CHIP8_OP_REG8, CHIP8_OP_BYTE, CHIP8_OP_NONE]⟩,
  ⟨['R','N','D'], CHIP8_OP_RND_BYTE, CHIP8_OP_MASK_GSN, CHIP8_OPR_IX, [CHIP8_OP_REG8, CHIP8_OP_BYTE, CHIP8_OP_NONE]⟩,
  ⟨['S','E'], CHIP8_OP_SE_REG, CHIP8_OP_MASK_EXT, CHIP8_OPR_IX, [CHIP8_OP_REG8, CHIP8_OP_REG4, CHIP8_OP_NONE]⟩,
  ⟨['L','D'], CHIP8_OP_LD_REG, CHIP8_OP_MASK_EXT, CHIP8_OPR_IX, [CHIP8_OP_REG8, CHIP8_OP_REG4, CHIP8_OP_NONE]⟩,
  ⟨['O','R'], CHIP8_OP_OR, CHIP8_OP_MASK_EXT, CHIP8_OPR_IX, [CHIP8_OP_REG8, CHIP8_OP_REG4, CHIP8_OP_NONE]⟩,
  ⟨['A','N','D'], CHIP8_OP_AND, CHIP8_OP_MASK_EXT, CHIP8_OPR_IX, [CHIP8_OP_REG8, CHIP8_OP_REG4, CHIP8_OP_NONE]⟩,
  ⟨['X','O','R'], CHIP8_OP_XOR, CHIP8_OP_MASK_EXT, CHIP8_OPR_IX, [CHIP8_OP_REG8, CHIP8_OP_REG4, CHIP8_OP_NONE]⟩,
  ⟨['A','D','D'], CHIP8_OP_ADD_REG, CHIP8_OP_MASK_EXT, CHIP8_OPR_IX, [CHIP8_OP_REG8, CHIP8_OP_REG4, CHIP8_OP_NONE]⟩,
  ⟨['S','U','B'], CHIP8_OP_SUB, CHIP8_OP_MASK_EXT, CHIP8_OPR_IX, [CHIP8_OP_REG8, CHIP8_OP_REG4, CHIP8_OP_NONE]⟩,
  ⟨['S','H','R'], CHIP8_OP_SHR, CHIP8_OP_MASK_EXT, CHIP8_OPR_IX, [CHIP8_OP_REG8, CHIP8_OP_REG4, CHIP8_OP_NONE]⟩,
  ⟨['S','U','B','N'], CHIP8_OP_SUBN, CHIP8_OP_MASK_EXT, CHIP8_OPR_IX, [CHIP8_OP_REG8, CHIP8_OP_REG4, CHIP8_OP_NONE]⟩,
  ⟨['S','H','L'], CHIP8_OP_SHL, CHIP8_OP_MASK_EXT, CHIP8_OPR_IX, [CHIP8_OP_REG8, CHIP8_OP_REG4, CHIP8_OP_NONE]⟩,
  ⟨['S','N','E'], CHIP8_OP_SNE_REG, CHIP8_OP_MASK_EXT, CHIP8_OPR_IX, [CHIP8_OP_REG8, CHIP8_OP_REG4, CHIP8_OP_NONE]⟩,
  ⟨['S','K','P'], CHIP8_OP_SKP, CHIP8_OP_MASK_EXX, CHIP8_OPR_IX, [CHIP8_OP_REG8, CHIP8_OP_NONE, CHIP8_OP_NONE]⟩,
  ⟨['S','K','N','P'], CHIP8_OP_SKNP, CHIP8_OP_MASK_EXX, CHIP8_OPR_IX, [CHIP8_OP_REG8, CHIP8_OP_NONE, CHIP8_OP_NONE]⟩,
  ⟨['L','D'], CHIP8_OP_LD_DT, CHIP8_OP_MASK_EXX, CHIP8_OPR_IX, [CHIP8_OP_REG8, CHIP8_OP_DT, CHIP8_OP_NONE]⟩,
  ⟨['L','D'], CHIP8_OP_LD_KEY, CHIP8_OP_MASK_EXX, CHIP8_OPR_IX, [CHIP8_OP_REG8, CHIP8_OP_KEY, CHIP8_OP_NONE]⟩,
  ⟨['L','D'], CHIP8_OP_LD_REG_DT, CHIP8_OP_MASK_EXX, CHIP8_OPR_IX, [CHIP8_OP_DT, CHIP8_OP_REG8, CHIP8_OP_NONE]⟩,
  ⟨['L','D'], CHIP8_OP_LD_REG_ST, CHIP8_OP_MASK_EXX, CHIP8_OPR_IX, [CHIP8_OP_ST, CHIP8_OP_REG8, CHIP8_OP_NONE]⟩,
  ⟨['A','D','D'], CHIP8_OP_ADD_REG_IX, CHIP8_OP_MASK_EXX, CHIP8_OPR_IX, [CHIP8_OP_IX, CHIP8_OP_REG8, CHIP8_OP_NONE]⟩,
  ⟨['L','D'], CHIP8_OP_LD_SPRITE, CHIP8_OP_MASK_EXX, CHIP8_OPR_IX, [CHIP8_OP_SPRITE, CHIP8_OP_REG8, CHIP8_OP_NONE]⟩,
  ⟨['L','D'], CHIP8_OP_LDS_BCD, CHIP8_OP_MASK_EXX, CHIP8_OPR_IX, [CHIP8_OP_BCD, CHIP8_OP_REG8, CHIP8_OP_NONE]⟩,
  ⟨['L','D'], CHIP8_OP_LDS_REGS, CHIP8_OP_MASK_EXX, CHIP8_OPR_IX, [CHIP8_OP_IXR, CHIP8_OP_REG8, CHIP8_OP_NONE]⟩,
  ⟨['L','D'], CHIP8_OP_LD_REGS, CHIP8_OP_MASK_EXX, CHIP8_OPR_IX, [CHIP8_OP_REG8, CHIP8_OP_IXR, CHIP8_OP_NONE]⟩,
  ⟨['D','R','W'], CHIP8_OP_DRW_EXT, CHIP8_OP_MASK_EXT, CHIP8_OPR_IX, [CHIP8_OP_REG8, CHIP8_OP_REG4, CHIP8_OP_NULL]⟩,
  ⟨['D','R','W'], CHIP8_OP_DRW_NIBBLE, CHIP8_OP_MASK_GSN, CHIP8_OPR_IX, [CHIP8_OP_REG8, CHIP8_OP_REG4, CHIP8_OP_NIBBLE]⟩,
  ⟨['D','B'], CHIP8_OP_DB, CHIP8_OP_MASK_GSB, CHIP8_OPR_DR, [CHIP8_OP_BYTE, CHIP8_OP_NONE, CHIP8_OP_NONE]⟩
]

/-- The array `asm_reserved`, up to its empty-string terminator. -/
def asm_reserved : List (List Char) := [
  ['V','0'], ['V','1'], ['V','2'], ['V','3'], ['V','4'], ['V','5'], ['V','6'], ['V','7'],
  ['V','8'], ['V','9'], ['V','A'], ['V','B'], ['V','C'], ['V','D'], ['V','E'], ['V','F'],
  ['D','T'], ['S','T'], ['I'], ['[','I',']'], ['F'], ['B'], ['K']
]

/-! ## src/chip8.c : the decoder -/

/-- The four out-parameters of `decode`. -/
structure DecodeState where
  opcode : Nat
  slab : Nat
  byte : Nat
  regs : Nat
  deriving DecidableEq, Repr

/-- The `switch (opc)` of `decode`, one `if` per group of `case` labels, for the
table row with mask `mask` and the fetched word `ix` (`rs2[CHIP8_IX]`). -/
def decodeSwitch (ix mask opc : Nat) (st : DecodeState) : DecodeState :=
  if opc ∈ [CHIP8_OP_CLS, CHIP8_OP_RET, CHIP8_OP_SCR, CHIP8_OP_SCL, CHIP8_OP_EXIT,
      CHIP8_OP_LOW, CHIP8_OP_HIGH] then
    { st with opcode := opc }
  else if opc ∈ [CHIP8_OP_JP, CHIP8_OP_CALL, CHIP8_OP_LD_ADDR, CHIP8_OP_JP_V0] then
    { st with slab := ((mask ^^^ 0xFFFF) &&& ix) % 65536, opcode := opc }
  else if opc ∈ [CHIP8_OP_SE_BYTE, CHIP8_OP_SNE_BYTE, CHIP8_OP_LD_BYTE, CHIP8_OP_ADD_BYTE,
      CHIP8_OP_RND_BYTE] then
    { st with byte := (0x00FF &&& ix) % 256,
              regs := (((0x0F00 &&& ix) >>> 4) ||| 0x0F) % 256, opcode := opc }
  else if opc ∈ [CHIP8_OP_SE_REG, CHIP8_OP_LD_REG, CHIP8_OP_OR, CHIP8_OP_AND, CHIP8_OP_XOR,
      CHIP8_OP_ADD_REG, CHIP8_OP_SUB, CHIP8_OP_SHR, CHIP8_OP_SUBN, CHIP8_OP_SHL,
      CHIP8_OP_SNE_REG] then
    { st with regs := ((0x0FF0 &&& ix) >>> 4) % 256, opcode := opc }
  else if opc ∈ [CHIP8_OP_SKP, CHIP8_OP_SKNP, CHIP8_OP_LD_DT, CHIP8_OP_LD_KEY,
      CHIP8_OP_LD_REG_DT, CHIP8_OP_LD_REG_ST, CHIP8_OP_ADD_REG_IX, CHIP8_OP_LD_SPRITE,
      CHIP8_OP_LDS_BCD, CHIP8_OP_LDS_REGS, CHIP8_OP_LD_REGS] then
    { st with regs := (((0x0F00 &&& ix) >>> 4) ||| 0x0F) % 256, opcode := opc }
  else if opc = CHIP8_OP_SCD then
    { st with byte := (0x000F &&& ix) % 256, opcode := opc }
  else if opc = CHIP8_OP_DRW_NIBBLE then
    { st with byte := (0x000F &&& ix) % 256, regs := ((0x0FF0 &&& ix) >>> 4) % 256,
              opcode := opc }
  else
    { st with opcode := 0xFFFF, slab := 0xFFF, byte := 0xFF }

/-- The `for` loop of `decode` over the remaining rows; `opc` is the local
variable of that name.  The loop leaves as soon as `opc == *opcode`. -/
def decodeLoop (ix : Nat) : List chip8_operations → Nat → DecodeState → DecodeState
  | [], _, st => st
  | e :: es, opc, st =>
    if opc = st.opcode then st
    else
      let opc1 := e.mask &&& ix
      decodeLoop ix es opc1 (decodeSwitch ix e.mask opc1 st)

/-- The function `decode`: `ix` is the fetched word `rs2[CHIP8_IX]`, `st` holds
the values of the out-parameters on entry. -/
def decode (ix : Nat) (st : DecodeState) : DecodeState :=
  decodeLoop ix optab 0xFFFF { st with regs := 0xFF }

/-! ## The C library, as far as `chip8c.c` uses it -/

/-- `isspace` in the "C" locale. -/
def isspace (c : Char) : Bool :=
  c = ' ' ∨ c = '\t' ∨ c = '\n' ∨ c = '\r' ∨ c.toNat = 11 ∨ c.toNat = 12

/-- The value of a base-16 digit, `none` for any other character. -/
def xdigit (c : Char) : Option Nat :=
  if 48 ≤ c.toNat ∧ c.toNat ≤ 57 then some (c.toNat - 48)
  else if 65 ≤ c.toNat ∧ c.toNat ≤ 70 then some (c.toNat - 55)
  else if 97 ≤ c.toNat ∧ c.toNat ≤ 102 then some (c.toNat - 87)
  else none

/-- The optional sign of `strtol`'s subject sequence. -/
def skipSign : List Char → List Char
  | [] => []
  | c :: r => if c = '-' ∨ c = '+' then r else c :: r

/-- The optional `0x` / `0X` of base 16; it belongs to the subject sequence only
when a hex digit follows it. -/
def skip0x : List Char → List Char
  | c0 :: x :: d :: r =>
    if c0 = '0' ∧ (x = 'x' ∨ x = 'X') ∧ (xdigit d).isSome then d :: r else c0 :: x :: d :: r
  | s => s

/-- The value of the longest prefix of hex digits, most significant digit first. -/
def strtolDigits : List Char → Nat → Nat
  | [], acc => acc
  | c :: cs, acc =>
    match xdigit c with
    | some d => strtolDigits cs (acc * 16 + d)
    | none => acc

def LONG_MAX : Int := 2 ^ 63 - 1
def LONG_MIN : Int := -(2 ^ 63)

/-- The call `errno = 0; val = strtol(s, NULL, 16)`: the returned `long` and
whether `errno != 0` afterwards.  A value out of range is clamped and reported
(`ERANGE`); with no digit at all the result is 0 and `errno` is set exactly when
the library is one that reports `EINVAL` (`einval`). -/
def strtol16 (einval : Bool) (s : List Char) : Int × Bool :=
  let s1 := s.dropWhile isspace
  let neg : Bool := s1.head? = some '-'
  let s3 := skip0x (skipSign s1)
  match s3 with
  | [] => (0, einval)
  | c :: _ =>
    if (xdigit c).isNone then (0, einval)
    else
      let v : Int := (strtolDigits s3 0 : Nat)
      if neg then (if v > 2 ^ 63 then (LONG_MIN, true) else (-v, false))
      else (if v > LONG_MAX then (LONG_MAX, true) else (v, false))

/-- The conversion `(uint16_t) val` of a `long`. -/
def toU16 (val : Int) : Nat := (val % 65536).toNat

/-- The conversion of a `uint16_t` to `int16_t` (two's complement). -/
def toI16 (a : Nat) : Int := if a % 65536 < 32768 then (a % 65536 : Nat) else (a % 65536 : Nat) - 65536

/-- The tokens `strtok` returns for the text `s` and the separator set `sep`:
the maximal runs of non-separator characters.  `cur` is the token being read,
reversed. -/
def strtokAux (sep : List Char) : List Char → List Char → List (List Char)
  | [], cur => if cur = [] then [] else [cur.reverse]
  | c :: cs, cur =>
    if c ∈ sep then
      (if cur = [] then strtokAux sep cs [] else cur.reverse :: strtokAux sep cs [])
    else strtokAux sep cs (c :: cur)

def strtok (sep s : List Char) : List (List Char) := strtokAux sep s []

/-- The lines `getline` returns one after the other: each ends with its newline,
except possibly the last.  `cur` is the line being read, reversed. -/
def getlinesAux : List Char → List Char → List (List Char)
  | [], cur => if cur = [] then [] else [cur.reverse]
  | c :: cs, cur =>
    if c = '\n' then (c :: cur).reverse :: getlinesAux cs [] else getlinesAux cs (c :: cur)

def getlines (src : List Char) : List (List Char) := getlinesAux src []

/-! ## src/chip8c.c : the assembler -/

/-- The struct `chip8_symbol`. -/
structure chip8_symbol where
  symbol : List Char
  address : Int
  deriving DecidableEq, Repr

/-- The function `reserved`: the two search loops. -/
def reserved (symbol : List Char) : Bool :=
  optab.any (fun e => symbol = e.mnemonic) || asm_reserved.any (fun r => symbol = r)

/-- The function `strip`, as the string it returns (`start`).  `line` is what
`getline` stored; as a C string it ends at the first NUL.  Leading spaces are
skipped; the scan stops at `;`, at a newline or at the end; only when it stopped
at `;` or newline does the backward loop drop the spaces before that point.
(For a line with nothing before the `;` or newline the backward loop leaves the
buffer; the returned string is then empty as long as that scan comes to a stop.) -/
def strip (line : List Char) : List Char :=
  let s := line.takeWhile (fun c => c.toNat ≠ 0)
  let l1 := s.dropWhile (fun c => c = ' ')
  let body := l1.takeWhile (fun c => c ≠ ';' ∧ c ≠ '\n')
  let rest := l1.dropWhile (fun c => c ≠ ';' ∧ c ≠ '\n')
  match rest with
  | [] => body
  | _ :: _ => (body.reverse.dropWhile (fun c => c = ' ')).reverse

/-- One `case` of the operand `switch` in `assemble`: `none` when the slot is
invalid, otherwise the updated `translation`. -/
def operandCase (einval : Bool) (symtab : List chip8_symbol) (kind : chip8_operands)
    (op : Option (List Char)) (translation : Nat) : Option Nat :=
  match kind with
  | CHIP8_OP_NONE => if op = none then some translation else none
  | CHIP8_OP_REG0 => if op = some ['V','0'] then some translation else none
  | CHIP8_OP_REG4 | CHIP8_OP_REG8 =>
    match op with
    | none => none
    | some s =>
      if s.head? ≠ some 'V' ∨ s.length > 2 ∨ s = ['V','F'] then none
      else
        let r := strtol16 einval s.tail
        if r.2 then none
        else some (translation |||
          (if CHIP8_OP_REG8 = kind then toU16 (r.1 * 2 ^ 8) else toU16 (r.1 * 2 ^ 4)))
  | CHIP8_OP_NIBBLE | CHIP8_OP_BYTE =>
    match op with
    | none => none
    | some s =>
      let r := strtol16 einval s
      if r.2 then none
      else if (CHIP8_OP_NIBBLE = kind ∧ r.1 ≤ 0xF) ∨ (CHIP8_OP_BYTE = kind ∧ r.1 ≤ 0xFF) then
        some (translation ||| toU16 r.1)
      else none
  | CHIP8_OP_SLAB =>
    match op with
    | none => none
    | some s =>
      let val : Int := symtab.foldl (fun v k => if k.symbol = s then k.address else v) (-1)
      if val = -1 then
        let r := strtol16 einval s
        if r.2 then none else some (translation ||| toU16 r.1)
      else some (translation ||| toU16 val)
  | CHIP8_OP_DT => if op = some ['D','T'] then some translation else none
  | CHIP8_OP_ST => if op = some ['S','T'] then some translation else none
  | CHIP8_OP_IX => if op = some ['I'] then some translation else none
  | CHIP8_OP_IXR => if op = some ['[','I',']'] then some translation else none
  | CHIP8_OP_BCD => if op = some ['B'] then some translation else none
  | CHIP8_OP_SPRITE => if op = some ['F'] then some translation else none
  | CHIP8_OP_HF => if op = some ['H','F'] then some translation else none
  | CHIP8_OP_NULL => none
  | CHIP8_OP_KEY => none

/-- The inner `for (j ...)` loop of `assemble` over the slots still to check,
each paired with its operand; an invalid slot resets `translation` to 0 and
leaves the loop. -/
def operandLoop (einval : Bool) (symtab : List chip8_symbol) :
    List (chip8_operands × Option (List Char)) → Nat → Nat
  | [], translation => translation
  | (kind, op) :: rest, translation =>
    match operandCase einval symtab kind op translation with
    | none => 0
    | some t => operandLoop einval symtab rest t

/-- The outer `for (i ...)` loop of `assemble` over the remaining table rows. -/
def assembleLoop (einval : Bool) (symtab : List chip8_symbol) (opr : List Char)
    (operands : List (Option (List Char))) : List chip8_operations → Nat → Nat
  | [], translation => translation
  | e :: es, translation =>
    if opr ≠ e.mnemonic then assembleLoop einval symtab opr operands es translation
    else
      let t := operandLoop einval symtab (e.operands.zip operands) e.opcode
      if t ≠ 0 then t else assembleLoop einval symtab opr operands es t

/-- The function `assemble`. -/
def assemble (einval : Bool) (opr : List Char) (op1 op2 op3 : Option (List Char))
    (symtab : List chip8_symbol) : Nat :=
  let translation := assembleLoop einval symtab opr [op1, op2, op3] optab 0
  if translation = 0 then 0xFFFF else translation

/-- The C string that `strcmp` later finds in the array `symbol[32]` of a table entry after
`strncpy(symbol, s, 30)`.  For `s` of fewer than 30 characters `strncpy` pads with NULs and
the string is `s`.  From 30 characters on it writes 30 characters and no NUL: the string
runs on into `behind`, the characters that the memory behind these 30 holds up to its first
NUL. -/
def strncpy30 (behind s : List Char) : List Char :=
  if s.length < 30 then s else s.take 30 ++ behind

/-- The `while` loop of `parse` over the lines still to read: `address` is the
location counter (`uint16_t`), the result is `success` and the symbol table.
The table comes from `realloc` and is not initialised: `uninit k` is what entry `k` holds
behind the first 30 bytes of `symbol` (up to the first NUL) when the name is copied into it.
(The doubling of `capacity` is storage management and is not modelled otherwise; `*count`
is the length of the table.) -/
def parseLoop (uninit : Nat → List Char) :
    List (List Char) → Nat → List chip8_symbol → Bool × List chip8_symbol
  | [], _, symtab => (true, symtab)
  | line :: rest, address, symtab =>
    let stripped := strip line
    if stripped.length = 0 then parseLoop uninit rest address symtab
    else if stripped.getLast? ≠ some ':' then
      parseLoop uninit rest ((address + 1) % 65536) symtab
    else if stripped.length - 1 > 30 then (false, symtab)
    else if reserved stripped.dropLast then (false, symtab)
    else parseLoop uninit rest address
      (symtab ++ [⟨strncpy30 (uninit symtab.length) stripped.dropLast, toI16 address⟩])

/-- The function `parse` (pass 1) on the text of the source file; `uninit` as in
`parseLoop`. -/
def parse (uninit : Nat → List Char) (src : List Char) : Bool × List chip8_symbol :=
  parseLoop uninit (getlines src) 0 []

/-- What `build` writes with one `fwrite`: a single byte or a 16-bit word. -/
inductive Emitted where
  | byte (b : Nat)
  | word (w : Nat)
  deriving DecidableEq, Repr

/-- The `while` loop of `build` over the lines still to read; `out` is what has
been written to `dst` so far.  The result is `none` where the C code has
undefined behaviour: `strcpy` into `stripped_copy[1024]` with a line of 1024 or
more characters, or a line without any token (`opr == NULL` reaches `strcmp`).
Otherwise it is the returned flag and everything written. -/
def buildLoop (einval : Bool) (symtab : List chip8_symbol) :
    List (List Char) → List Emitted → Option (Bool × List Emitted)
  | [], out => some (true, out)
  | line :: rest, out =>
    let stripped := strip line
    if stripped.length = 0 then buildLoop einval symtab rest out
    else if stripped.getLast? = some ':' then buildLoop einval symtab rest out
    else if 1024 ≤ stripped.length then none
    else
      let toks := strtok [',', '\t', ' '] stripped
      match toks with
      | [] => none
      | opr :: ops =>
        let translation := assemble einval opr ops[0]? ops[1]? ops[2]? symtab
        if translation = 0xFFFF then some (false, out)
        else if opr = ['D','B'] then
          buildLoop einval symtab rest (out ++ [Emitted.byte (translation % 256)])
        else buildLoop einval symtab rest (out ++ [Emitted.word translation])

/-- The function `build` (pass 2); `parsed` is its last parameter, the result of
pass 1. -/
def build (einval : Bool) (src : List Char) (symtab : List chip8_symbol) (parsed : Bool) :
    Option (Bool × List Emitted) :=
  if parsed = false then some (false, [])
  else buildLoop einval symtab (getlines src) []

/-- The two calls in `main` of `chip8c.c`: `parse`, then `build` with its result. -/
def chip8c_main (einval : Bool) (uninit : Nat → List Char) (src : List Char) :
    Option (Bool × List Emitted) :=
  let p := parse uninit src
  build einval src p.2 p.1

/-! ## src/chip8c.c : `strip` as a run on memory -/

/-- One dereference made by `strip`: the position read or written, counted in characters
from the pointer `line` that `strip` was called with (its first character is position 0). -/
inductive Access where
  | read (pos : Int)
  | write (pos : Int)
  deriving DecidableEq, Repr

/-- A run of `strip` on a piece of memory: the dereferences in the order they are made and,
unless the run reaches a position outside the piece of memory (of which nothing is known), the
returned pointer `start` as a position together with the C string found there on return. -/
abbrev StripRun := List Access × Option (Int × List Char)

/-- Puts accesses in front of the rest of a run. -/
def StripRun.after (as : List Access) (r : StripRun) : StripRun := (as ++ r.1, r.2)

/-- The value `strip` returns, once its loops are done: `start`, with `strlen(start)` stored in
`*linelen`.  `l` holds the memory before position `p`, nearest cell first, `r` the memory
from `p` on.  (What `strlen` reads inside the C library is not listed.) -/
def stripReturn (start : Int) (l r : List Char) (p : Int) : StripRun :=
  ([], some (start,
    ((l.reverse ++ r).drop ((l.length : Int) - p + start).toNat).takeWhile
      (fun c => c.toNat ≠ 0)))

/-- The loop `while (*(++line) != '\0') { *line = '\0'; }`, with `line` at position `p`, on the
cell `cur`; `r` is the memory after it. -/
def stripZero (start : Int) : List Char → Char → List Char → Int → StripRun
  | _, _, [], p => ([Access.read (p + 1)], none)
  | l, cur, c :: r, p =>
    if c.toNat ≠ 0 then
      StripRun.after [Access.read (p + 1), Access.write (p + 1)]
        (stripZero start (cur :: l) (Char.ofNat 0) r (p + 1))
    else
      StripRun.after [Access.read (p + 1)] (stripReturn start (cur :: l) (c :: r) (p + 1))

/-- The loop `while (*(--line) == ' ');`, with `line` at position `p`; `l` is the memory before
`p`, nearest cell first, `r` the memory from `p` on.  It is followed by the zeroing loop. -/
def stripBack (start : Int) : List Char → List Char → Int → StripRun
  | [], _, p => ([Access.read (p - 1)], none)
  | c :: l, r, p =>
    if c = ' ' then StripRun.after [Access.read (p - 1)] (stripBack start l (c :: r) (p - 1))
    else StripRun.after [Access.read (p - 1)] (stripZero start l c r (p - 1))

/-- The statement `if (*line == ';' || *line == '\n') { ... }` and what follows it. -/
def stripIf (start : Int) (l r : List Char) (p : Int) : StripRun :=
  match r with
  | [] => ([Access.read p], none)
  | c :: r1 =>
    if c = ';' then StripRun.after [Access.read p] (stripBack start l r p)
    else if c = '\n' then StripRun.after [Access.read p, Access.read p] (stripBack start l r p)
    else StripRun.after [Access.read p, Access.read p] (stripZero start l c r1 p)

/-- The loop `while (*line != '\0' && *line != ';' && *line != '\n') { line++; }` and what
follows it. -/
def stripScan (start : Int) : List Char → List Char → Int → StripRun
  | _, [], p => ([Access.read p], none)
  | l, c :: r, p =>
    if c.toNat = 0 then StripRun.after [Access.read p] (stripIf start l (c :: r) p)
    else if c = ';' then
      StripRun.after [Access.read p, Access.read p] (stripIf start l (c :: r) p)
    else if c = '\n' then
      StripRun.after [Access.read p, Access.read p, Access.read p] (stripIf start l (c :: r) p)
    else
      StripRun.after [Access.read p, Access.read p, Access.read p]
        (stripScan start (c :: l) r (p + 1))

/-- The loop `while (*line != '\0' && *line == ' ') { line++; }`, the assignment
`start = line` and what follows it. -/
def stripSkip : List Char → List Char → Int → StripRun
  | _, [], p => ([Access.read p], none)
  | l, c :: r, p =>
    if c.toNat = 0 then StripRun.after [Access.read p] (stripScan p l (c :: r) p)
    else if c = ' ' then
      StripRun.after [Access.read p, Access.read p] (stripSkip (c :: l) r (p + 1))
    else StripRun.after [Access.read p, Access.read p] (stripScan p l (c :: r) p)

/-- The function `strip` as a run on memory: `before` is the memory in front of the pointer
`line` (nearest cell first), `buf` the memory from `line` on. -/
def stripRun (before buf : List Char) : StripRun := stripSkip before buf 0

/-- The memory a NUL-terminated line occupies, followed by `rest`. -/
def lineBuffer (line : List Char) (rest : List Char) : List Char :=
  line ++ Char.ofNat 0 :: rest

/-! ## The rules of the specification that the code is compared with -/

/-- The decoding rule of the specification (section 4.3), in its words: the first
row of the table, in table order, with `word & mask == pattern`; `none` when the
table is exhausted without a match. -/
def specFirstMatch (word : Nat) : Option chip8_operations :=
  optab.find? (fun e => word &&& e.mask = e.opcode)

/-- The out-parameters as `main` of `chip8.c` initialises them before the fetch
loop. -/
def mainInit : DecodeState := ⟨0x0000, 0x000, 0x00, 0xFF⟩

/-- A line both passes take for a label definition: non-empty after `strip` and ending
in `:`. -/
def isLabelLine (line : List Char) : Bool :=
  (strip line).length ≠ 0 && (strip line).getLast? = some ':'

/-- A line that is non-blank after `strip` and not a label definition: the lines that
advance the location counter. -/
def isInstrLine (line : List Char) : Bool :=
  (strip line).length ≠ 0 && (strip line).getLast? ≠ some ':'

/-- The name a label line defines: the stripped line without its final `:`. -/
def labelName (line : List Char) : List Char := (strip line).dropLast

/-- The number of lines of `ls` that are non-blank after stripping and that do not define
a label. -/
def instrCount (ls : List (List Char)) : Nat := (ls.filter isInstrLine).length

/-- The number of label definitions among the lines `ls`. -/
def labelCount (ls : List (List Char)) : Nat := (ls.filter isLabelLine).length

/-- A table memory that holds NUL behind every name. -/
def zeroed : Nat → List Char := fun _ => []

/-- The digits of a hex literal: the token without an optional `0x` / `0X`. -/
def literalBody (tok : List Char) : List Char :=
  match tok with
  | c0 :: x :: r => if c0 = '0' ∧ (x = 'x' ∨ x = 'X') then r else tok
  | _ => tok

/-- A hex literal: an optional `0x` / `0X`, then one or more hex digits and nothing else. -/
def isHexLiteral (tok : List Char) : Bool :=
  literalBody tok ≠ [] && (literalBody tok).all (fun c => (xdigit c).isSome)

/-- The number a hex literal denotes, most significant digit first. -/
def hexLiteralValue (tok : List Char) : Nat :=
  (literalBody tok).foldl (fun acc c => acc * 16 + (xdigit c).getD 0) 0

/-- The text of register `x`: `V` and one upper-case hex digit. -/
def regName (x : Nat) : List Char :=
  ['V', ['0','1','2','3','4','5','6','7','8','9','A','B','C','D','E','F'].getD x '0']

/-- The operand keywords the specification reserves, in its words: `V0..V9, VA..VF`, then
`DT, ST, I, [I], F, B, K`. -/
def specReservedOperands : List (List Char) :=
  (List.range 16).map regName ++ ["DT".toList, "ST".toList, "I".toList, "[I]".toList,
    "F".toList, "B".toList, "K".toList]

/-- A word matches a table row when `word & mask == pattern`. -/
def rowMatches (e : chip8_operations) (word : Nat) : Bool :=
  word &&& e.mask = e.opcode

/-- The tokens pass 2 splits a line into: mnemonic first, then the operands. -/
def lineTokens (line : List Char) : List (List Char) :=
  strtok [',', '\t', ' '] (strip line)

/-- What the specification has an instruction line contribute to the output: one byte, the
low byte of the encoding, for the directive `DB`, one 16-bit word for anything else; `none`
for a line without a mnemonic. -/
def emitLine (einval : Bool) (symtab : List chip8_symbol) (line : List Char) : Option Emitted :=
  match lineTokens line with
  | [] => none
  | opr :: ops =>
    if opr = ['D','B'] then
      some (Emitted.byte (assemble einval opr ops[0]? ops[1]? ops[2]? symtab % 256))
    else some (Emitted.word (assemble einval opr ops[0]? ops[1]? ops[2]? symtab))

/-- An instruction line whose mnemonic is `DB`. -/
def isDBLine (line : List Char) : Bool :=
  isInstrLine line && (lineTokens line).head? = some ['D','B']

/-- The number of bytes one `fwrite` of `build` puts into the output. -/
def byteSize : Emitted → Nat
  | Emitted.byte _ => 1
  | Emitted.word _ => 2

/-- The length in bytes of an output. -/
def byteLength (out : List Emitted) : Nat := (out.map byteSize).sum

/-- Whether `assemble` returns the failure value 0xFFFF for the tokens of a line. -/
def lineFails (einval : Bool) (symtab : List chip8_symbol) (line : List Char) : Bool :=
  match lineTokens line with
  | [] => false
  | opr :: ops => assemble einval opr ops[0]? ops[1]? ops[2]? symtab = 0xFFFF

/-- A line on which pass 2 has undefined behaviour: an instruction line of 1024 or more
characters after stripping, or one without any token. -/
def lineUndefined (line : List Char) : Bool :=
  isInstrLine line && (decide (1024 ≤ (strip line).length) || lineTokens line = [])

/-! ## Auxiliary definitions for the proofs -/

/-- The symbols pass 1 appends for the lines `ls` when the counter stands at `a` and the
table has `n` entries, every label being accepted (the counter is kept unreduced here). -/
def symsFrom (uninit : Nat → List Char) : List (List Char) → Nat → Nat → List chip8_symbol
  | [], _, _ => []
  | l :: ls, a, n =>
    if isInstrLine l then symsFrom uninit ls (a + 1) n
    else if isLabelLine l then
      ⟨strncpy30 (uninit n) (labelName l), toI16 a⟩ :: symsFrom uninit ls a (n + 1)
    else symsFrom uninit ls a n

/-- Whether `switch (opc)` of `decode` has a `case` label for `opc`. -/
def decodeCase (opc : Nat) : Bool :=
  opc ∈ [CHIP8_OP_CLS, CHIP8_OP_RET, CHIP8_OP_SCR, CHIP8_OP_SCL, CHIP8_OP_EXIT,
      CHIP8_OP_LOW, CHIP8_OP_HIGH]
  || opc ∈ [CHIP8_OP_JP, CHIP8_OP_CALL, CHIP8_OP_LD_ADDR, CHIP8_OP_JP_V0]
  || opc ∈ [CHIP8_OP_SE_BYTE, CHIP8_OP_SNE_BYTE, CHIP8_OP_LD_BYTE, CHIP8_OP_ADD_BYTE,
      CHIP8_OP_RND_BYTE]
  || opc ∈ [CHIP8_OP_SE_REG, CHIP8_OP_LD_REG, CHIP8_OP_OR, CHIP8_OP_AND, CHIP8_OP_XOR,
      CHIP8_OP_ADD_REG, CHIP8_OP_SUB, CHIP8_OP_SHR, CHIP8_OP_SUBN, CHIP8_OP_SHL,
      CHIP8_OP_SNE_REG]
  || opc ∈ [CHIP8_OP_SKP, CHIP8_OP_SKNP, CHIP8_OP_LD_DT, CHIP8_OP_LD_KEY,
      CHIP8_OP_LD_REG_DT, CHIP8_OP_LD_REG_ST, CHIP8_OP_ADD_REG_IX, CHIP8_OP_LD_SPRITE,
      CHIP8_OP_LDS_BCD, CHIP8_OP_LDS_REGS, CHIP8_OP_LD_REGS]
  || opc = CHIP8_OP_SCD
  || opc = CHIP8_OP_DRW_NIBBLE

/-- The state the `default:` branch leaves when `regs` is still 0xFF. -/
def illegalState : DecodeState := ⟨0xFFFF, 0xFFF, 0xFF, 0xFF⟩

/-- A 16-bit word that matches row `a` and not row `b`, looked for among the smallest and
the largest word matching `a`. -/
def separates (a b : chip8_operations) : Bool :=
  (decide (a.opcode < 65536) && rowMatches a a.opcode && !rowMatches b a.opcode)
  || (decide (a.opcode ||| (a.mask ^^^ 0xFFFF) < 65536)
      && rowMatches a (a.opcode ||| (a.mask ^^^ 0xFFFF))
      && !rowMatches b (a.opcode ||| (a.mask ^^^ 0xFFFF)))

/-- The `case` labels of `switch (opc)` in `decode`, in source order. -/
def decodeConstants : List Nat :=
  [CHIP8_OP_CLS, CHIP8_OP_RET, CHIP8_OP_SCR, CHIP8_OP_SCL, CHIP8_OP_EXIT, CHIP8_OP_LOW,
   CHIP8_OP_HIGH, CHIP8_OP_JP, CHIP8_OP_CALL, CHIP8_OP_LD_ADDR, CHIP8_OP_JP_V0,
   CHIP8_OP_SE_BYTE, CHIP8_OP_SNE_BYTE, CHIP8_OP_LD_BYTE, CHIP8_OP_ADD_BYTE, CHIP8_OP_RND_BYTE,
   CHIP8_OP_SE_REG, CHIP8_OP_LD_REG, CHIP8_OP_OR, CHIP8_OP_AND, CHIP8_OP_XOR, CHIP8_OP_ADD_REG,
   CHIP8_OP_SUB, CHIP8_OP_SHR, CHIP8_OP_SUBN, CHIP8_OP_SHL, CHIP8_OP_SNE_REG,
   CHIP8_OP_SKP, CHIP8_OP_SKNP, CHIP8_OP_LD_DT, CHIP8_OP_LD_KEY, CHIP8_OP_LD_REG_DT,
   CHIP8_OP_LD_REG_ST, CHIP8_OP_ADD_REG_IX, CHIP8_OP_LD_SPRITE, CHIP8_OP_LDS_BCD,
   CHIP8_OP_LDS_REGS, CHIP8_OP_LD_REGS, CHIP8_OP_SCD, CHIP8_OP_DRW_NIBBLE]

/-- The patterns of the formats with an address or an 8-bit immediate: a top nibble and
nothing else. -/
def nibblePatterns : List Nat :=
  [CHIP8_OP_JP, CHIP8_OP_CALL, CHIP8_OP_LD_ADDR, CHIP8_OP_JP_V0,
   CHIP8_OP_SE_BYTE, CHIP8_OP_SNE_BYTE, CHIP8_OP_LD_BYTE, CHIP8_OP_ADD_BYTE, CHIP8_OP_RND_BYTE]

/-! ## Lemmas -/

set_option maxRecDepth 1000000

/-! ### Pass 1 -/

theorem parseLoop_fails_iff (uninit : Nat → List Char) (ls : List (List Char)) (a : Nat)
    (st : List chip8_symbol) :
    (parseLoop uninit ls a st).1 = false ↔
      ∃ l ∈ ls, isLabelLine l = true ∧ (reserved (labelName l) = true ∨ 30 < (labelName l).length) := by
  induction ls generalizing a st with
  | nil => simp [parseLoop]
  | cons l ls ih =>
    simp only [parseLoop]
    split_ifs with h1 h2 h3 h4
    · have : isLabelLine l = false := by simp [isLabelLine, h1]
      simp [ih, this]
    · have : isLabelLine l = false := by simp [isLabelLine, h2]
      simp [ih, this]
    · have hl : isLabelLine l = true := by
        simp only [ne_eq, Decidable.not_not] at h2
        simp [isLabelLine, h1, h2]
      have : 30 < (labelName l).length := by simpa [labelName] using h3
      simp only [List.mem_cons, exists_eq_or_imp, true_iff]
      exact Or.inl ⟨hl, Or.inr this⟩
    · have hl : isLabelLine l = true := by
        simp only [ne_eq, Decidable.not_not] at h2
        simp [isLabelLine, h1, h2]
      simp only [List.mem_cons, exists_eq_or_imp, true_iff]
      exact Or.inl ⟨hl, Or.inl h4⟩
    · have h5 : ¬ (reserved (labelName l) = true ∨ 30 < (labelName l).length) := by
        simp only [labelName, List.length_dropLast]
        rintro (h | h)
        · exact h4 h
        · exact h3 h
      simp [ih, h5]

/-- Whether pass 1 succeeds does not depend on what the table memory held. -/
theorem parse_fst_uninit (u v : Nat → List Char) (src : List Char) :
    (parse u src).1 = (parse v src).1 := by
  have h1 := parseLoop_fails_iff u (getlines src) 0 []
  have h2 := parseLoop_fails_iff v (getlines src) 0 []
  have h : (parse u src).1 = false ↔ (parse v src).1 = false := h1.trans h2.symm
  cases hu : (parse u src).1 <;> cases hv : (parse v src).1 <;> simp_all

theorem strncpy30_short (behind s : List Char) (h : s.length < 30) :
    strncpy30 behind s = s := by
  simp [strncpy30, h]

/-- A name of fewer than 30 characters is found in an entry only if that name was copied
into it. -/
theorem strncpy30_ne (behind s n : List Char) (hn : n.length < 30) (hs : s ≠ n) :
    strncpy30 behind s ≠ n := by
  unfold strncpy30
  split_ifs with h
  · exact hs
  · intro e
    have hl := congrArg List.length e
    rw [List.length_append, List.length_take] at hl
    omega

/-- On a source whose label names all have fewer than 30 characters the result of pass 1
does not depend on what the table memory held. -/
theorem parseLoop_short (u v : Nat → List Char) (ls : List (List Char)) (a : Nat)
    (st : List chip8_symbol)
    (h : ∀ l ∈ ls, isLabelLine l = true → (labelName l).length < 30) :
    parseLoop u ls a st = parseLoop v ls a st := by
  induction ls generalizing a st with
  | nil => rfl
  | cons l ls ih =>
    have ih2 := fun a st => ih a st (fun l2 hl2 => h l2 (List.mem_cons_of_mem _ hl2))
    simp only [parseLoop]
    split_ifs with h1 h2 h3 h4
    · exact ih2 _ _
    · exact ih2 _ _
    · rfl
    · rfl
    · have hl : isLabelLine l = true := by
        simp only [ne_eq, Decidable.not_not] at h2
        simp [isLabelLine, h1, h2]
      have hs := h l (List.mem_cons_self _ _) hl
      simp only [labelName] at hs
      rw [strncpy30_short _ _ hs, strncpy30_short _ _ hs]
      exact ih2 _ _

theorem parse_short (u v : Nat → List Char) (src : List Char)
    (h : ∀ l ∈ getlines src, isLabelLine l = true → (labelName l).length < 30) :
    parse u src = parse v src :=
  parseLoop_short u v _ _ _ h

theorem chip8c_main_short (einval : Bool) (u v : Nat → List Char) (src : List Char)
    (h : ∀ l ∈ getlines src, isLabelLine l = true → (labelName l).length < 30) :
    chip8c_main einval u src = chip8c_main einval v src := by
  simp only [chip8c_main]
  rw [parse_short u v src h]

theorem toI16_mod (a : Nat) : toI16 (a % 65536) = toI16 a := by
  simp [toI16]

theorem parseLoop_mod (uninit : Nat → List Char) (ls : List (List Char)) (a : Nat)
    (st : List chip8_symbol) :
    parseLoop uninit ls (a % 65536) st = parseLoop uninit ls a st := by
  induction ls generalizing a st with
  | nil => rfl
  | cons l ls ih =>
    simp only [parseLoop, toI16_mod, Nat.mod_add_mod, ih]

theorem parseLoop_snd (uninit : Nat → List Char) (ls : List (List Char)) (a : Nat)
    (st : List chip8_symbol) (h : (parseLoop uninit ls a st).1 = true) :
    (parseLoop uninit ls a st).2 = st ++ symsFrom uninit ls a st.length := by
  induction ls generalizing a st with
  | nil => simp [parseLoop, symsFrom]
  | cons l ls ih =>
    simp only [parseLoop] at h ⊢
    split_ifs at h ⊢ with h1 h2 h3 h4
    · have e1 : isInstrLine l = false := by simp [isInstrLine, h1]
      have e2 : isLabelLine l = false := by simp [isLabelLine, h1]
      simp only [symsFrom, e1, e2, Bool.false_eq_true, if_false]
      exact ih _ _ h
    · have e1 : isInstrLine l = true := by simp [isInstrLine, h1, h2]
      simp only [symsFrom, e1, if_true]
      rw [parseLoop_mod] at h ⊢
      exact ih _ _ h
    · simp only [ne_eq, Decidable.not_not] at h2
      have e1 : isInstrLine l = false := by simp [isInstrLine, h2]
      have e2 : isLabelLine l = true := by simp [isLabelLine, h1, h2]
      simp only [symsFrom, e1, e2, Bool.false_eq_true, if_false, if_true]
      rw [ih _ _ h]
      simp [labelName]

theorem symsFrom_append (uninit : Nat → List Char) (pre rest : List (List Char)) (a n : Nat) :
    symsFrom uninit (pre ++ rest) a n
      = symsFrom uninit pre a n
        ++ symsFrom uninit rest (a + instrCount pre) (n + labelCount pre) := by
  induction pre generalizing a n with
  | nil => simp [symsFrom, instrCount, labelCount]
  | cons l pre ih =>
    by_cases h1 : isInstrLine l = true
    · have h2 : isLabelLine l = false := by
        simp only [isInstrLine, Bool.and_eq_true, decide_eq_true_eq] at h1
        simp [isLabelLine, h1.2]
      have hc : instrCount (l :: pre) = instrCount pre + 1 := by simp [instrCount, h1]
      have hd : labelCount (l :: pre) = labelCount pre := by simp [labelCount, h2]
      show symsFrom uninit (l :: (pre ++ rest)) a n
        = symsFrom uninit (l :: pre) a n
          ++ symsFrom uninit rest (a + instrCount (l :: pre)) (n + labelCount (l :: pre))
      rw [hc, hd]
      simp only [symsFrom, h1, if_true]
      rw [ih]
      congr 2
      omega
    · by_cases h2 : isLabelLine l = true
      · have hc : instrCount (l :: pre) = instrCount pre := by simp [instrCount, h1]
        have hd : labelCount (l :: pre) = labelCount pre + 1 := by simp [labelCount, h2]
        show symsFrom uninit (l :: (pre ++ rest)) a n
          = symsFrom uninit (l :: pre) a n
            ++ symsFrom uninit rest (a + instrCount (l :: pre)) (n + labelCount (l :: pre))
        rw [hc, hd]
        simp only [symsFrom, h1, h2, Bool.false_eq_true, if_false, if_true, List.cons_append]
        rw [ih]
        congr 3
        omega
      · simp [symsFrom, h1, h2, ih, instrCount, labelCount]

theorem symsFrom_names (uninit : Nat → List Char) (ls : List (List Char)) (a n : Nat) :
    ∀ k ∈ symsFrom uninit ls a n,
      ∃ l ∈ ls, isLabelLine l = true ∧ ∃ i, k.symbol = strncpy30 (uninit i) (labelName l) := by
  induction ls generalizing a n with
  | nil => simp [symsFrom]
  | cons l ls ih =>
    intro k hk
    simp only [symsFrom] at hk
    split_ifs at hk with h1 h2
    · obtain ⟨l2, hl2, h⟩ := ih _ _ k hk
      exact ⟨l2, List.mem_cons_of_mem _ hl2, h⟩
    · rcases List.mem_cons.mp hk with hk | hk
      · exact ⟨l, List.mem_cons_self _ _, h2, n, by rw [hk]⟩
      · obtain ⟨l2, hl2, h⟩ := ih _ _ k hk
        exact ⟨l2, List.mem_cons_of_mem _ hl2, h⟩
    · obtain ⟨l2, hl2, h⟩ := ih _ _ k hk
      exact ⟨l2, List.mem_cons_of_mem _ hl2, h⟩

/-- The symbol search of the `CHIP8_OP_SLAB` case: the last entry with the name wins. -/
theorem lookup_last (X Y : List chip8_symbol) (n : List Char) (v : Int)
    (hY : ∀ k ∈ Y, k.symbol ≠ n) :
    (X ++ ⟨n, v⟩ :: Y).foldl (fun w k => if k.symbol = n then k.address else w) (-1) = v := by
  rw [List.foldl_append, List.foldl_cons]
  simp only [if_true]
  generalize List.foldl (fun w k => if k.symbol = n then k.address else w) (-1) X = w0
  clear w0
  induction Y generalizing v with
  | nil => rfl
  | cons k Y ih =>
    rw [List.foldl_cons, if_neg (hY k (List.mem_cons_self _ _))]
    exact ih v (fun k hk => hY k (List.mem_cons_of_mem _ hk))

theorem parse_label_ok (uninit : Nat → List Char) (src : List Char)
    (hok : (parse uninit src).1 = true) (l : List Char)
    (hmem : l ∈ getlines src) (hl : isLabelLine l = true) :
    reserved (labelName l) = false ∧ (labelName l).length ≤ 30 := by
  have h := (parseLoop_fails_iff uninit (getlines src) 0 []).not
  have hne : ¬ ((parseLoop uninit (getlines src) 0 []).1 = false) := by
    have : (parseLoop uninit (getlines src) 0 []).1 = true := hok
    simp [this]
  have h2 := h.mp hne
  constructor
  · by_contra hr
    exact h2 ⟨l, hmem, hl, Or.inl (by simpa using hr)⟩
  · by_contra hr
    exact h2 ⟨l, hmem, hl, Or.inr (by omega)⟩

/-! ### `strtol` on hex literals -/

theorem xdigit_not_space {c : Char} (hc : (xdigit c).isSome = true) : isspace c = false := by
  by_contra h
  simp only [isspace, Bool.not_eq_false, Bool.decide_or, Bool.or_eq_true, decide_eq_true_eq] at h
  rcases h with h | h | h | h | h | h
  · subst h; revert hc; decide
  · subst h; revert hc; decide
  · subst h; revert hc; decide
  · subst h; revert hc; decide
  · simp [xdigit, h] at hc
  · simp [xdigit, h] at hc

theorem xdigit_ne {c d : Char} (hc : (xdigit c).isSome = true) (hd : (xdigit d).isSome = false) :
    c ≠ d := by
  intro h; subst h; rw [hc] at hd; exact Bool.noConfusion hd

theorem strtolDigits_all (ds : List Char) (acc : Nat)
    (h : ∀ c ∈ ds, (xdigit c).isSome = true) :
    strtolDigits ds acc = ds.foldl (fun acc c => acc * 16 + (xdigit c).getD 0) acc := by
  induction ds generalizing acc with
  | nil => rfl
  | cons c cs ih =>
    have hc := h c (List.mem_cons_self _ _)
    obtain ⟨d, hd⟩ := Option.isSome_iff_exists.mp hc
    simp only [strtolDigits, hd, List.foldl_cons, Option.getD_some]
    exact ih _ (fun c hc => h c (List.mem_cons_of_mem _ hc))

/-- What `strtol` makes of the digits `d :: r` once blanks, sign and prefix are behind. -/
theorem strtol16_digits (einval : Bool) (s : List Char) (d : Char) (r : List Char)
    (hs1 : s.dropWhile isspace = s) (hneg : s.head? ≠ some '-')
    (hskip : skip0x (skipSign s) = d :: r)
    (hall : ∀ c ∈ d :: r, (xdigit c).isSome = true) :
    strtol16 einval s =
      if LONG_MAX < (((d :: r).foldl (fun acc c => acc * 16 + (xdigit c).getD 0) 0 : Nat) : Int)
      then (LONG_MAX, true)
      else ((((d :: r).foldl (fun acc c => acc * 16 + (xdigit c).getD 0) 0 : Nat) : Int), false) := by
  have hd := hall d (List.mem_cons_self _ _)
  have hdn : (xdigit d).isNone = false := by
    cases h : xdigit d <;> simp_all
  simp only [strtol16, hs1, hskip, hdn, Bool.false_eq_true, if_false, hneg, decide_False,
    strtolDigits_all _ _ hall, gt_iff_lt]

theorem strtol16_literal (einval : Bool) (tok : List Char) (h : isHexLiteral tok = true) :
    strtol16 einval tok =
      if LONG_MAX < (hexLiteralValue tok : Int) then (LONG_MAX, true)
      else ((hexLiteralValue tok : Int), false) := by
  have hsign : ∀ c : Char, (xdigit c).isSome = true → c ≠ '-' ∧ c ≠ '+' := fun c hc =>
    ⟨xdigit_ne hc (by decide), xdigit_ne hc (by decide)⟩
  match tok, h with
  | [], h => simp [isHexLiteral, literalBody] at h
  | [c], h =>
    have hc : (xdigit c).isSome = true := by simpa [isHexLiteral, literalBody] using h
    have hv : hexLiteralValue [c] = [c].foldl (fun acc c => acc * 16 + (xdigit c).getD 0) 0 := rfl
    rw [hv]
    apply strtol16_digits
    · simp [List.dropWhile, xdigit_not_space hc]
    · simp [(hsign c hc).1]
    · simp [skipSign, (hsign c hc).1, (hsign c hc).2, skip0x]
    · simpa using hc
  | c0 :: x :: r, h =>
    by_cases hp : c0 = '0' ∧ (x = 'x' ∨ x = 'X')
    · have hb : literalBody (c0 :: x :: r) = r := by simp [literalBody, hp]
      simp only [isHexLiteral, hb, Bool.and_eq_true, decide_eq_true_eq, List.all_eq_true] at h
      obtain ⟨hne, hall⟩ := h
      match r, hne, hall, hb with
      | d :: r2, _, hall, hb =>
        have hv : hexLiteralValue (c0 :: x :: d :: r2)
            = (d :: r2).foldl (fun acc c => acc * 16 + (xdigit c).getD 0) 0 := by
          simp [hexLiteralValue, hb]
        rw [hv]
        have hd := hall d (List.mem_cons_self _ _)
        obtain ⟨h0, hx⟩ := hp
        subst h0
        apply strtol16_digits
        · simp [List.dropWhile, isspace]
        · simp
        · simp [skipSign, skip0x, hx, hd]
        · exact hall
    · have hb : literalBody (c0 :: x :: r) = c0 :: x :: r := by simp [literalBody, hp]
      simp only [isHexLiteral, hb, Bool.and_eq_true, decide_eq_true_eq, List.all_eq_true] at h
      obtain ⟨_, hall⟩ := h
      have hv : hexLiteralValue (c0 :: x :: r)
          = (c0 :: x :: r).foldl (fun acc c => acc * 16 + (xdigit c).getD 0) 0 := by
        simp only [hexLiteralValue, hb]
      rw [hv]
      have hc := hall c0 (List.mem_cons_self _ _)
      apply strtol16_digits
      · simp [List.dropWhile, xdigit_not_space hc]
      · simp [(hsign c0 hc).1]
      · cases r with
        | nil => simp [skipSign, (hsign c0 hc).1, (hsign c0 hc).2, skip0x]
        | cons d r2 =>
          simp only [skipSign, (hsign c0 hc).1, (hsign c0 hc).2, or_self, if_false, skip0x]
          rw [if_neg]
          rintro ⟨h0, hx, _⟩
          exact hp ⟨h0, hx⟩
      · exact hall

/-! ### The operand cases and the table rows of `assemble` -/

theorem assembleLoop_filter (einval : Bool) (tab : List chip8_symbol) (opr : List Char)
    (ops : List (Option (List Char))) (es : List chip8_operations) (t : Nat) :
    assembleLoop einval tab opr ops es t
      = assembleLoop einval tab opr ops (es.filter (fun e => decide (opr = e.mnemonic))) t := by
  induction es generalizing t with
  | nil => rfl
  | cons e es ih =>
    by_cases h : opr = e.mnemonic
    · simp only [assembleLoop, h, ne_eq, not_true_eq_false, if_false, List.filter_cons,
        decide_True, if_true]
      split_ifs
      · rw [← h]; exact ih _
      · rfl
    · simp only [assembleLoop, h, ne_eq, not_false_eq_true, if_true, List.filter_cons,
        decide_False, Bool.false_eq_true, if_false]
      exact ih _

theorem toU16_natCast (n : Nat) (h : n < 65536) : toU16 (n : Int) = n := by
  unfold toU16
  omega

theorem operandCase_reg8 (einval : Bool) (tab : List chip8_symbol) (x t : Nat) (hx : x ≤ 14) :
    operandCase einval tab CHIP8_OP_REG8 (some (regName x)) t = some (t ||| (x <<< 8)) := by
  have h1 : strtol16 einval (regName x).tail = ((x : Int), false) := by
    interval_cases x <;> cases einval <;> decide
  have h2 : ¬ ((regName x).head? ≠ some 'V' ∨ (regName x).length > 2 ∨ regName x = ['V','F']) := by
    interval_cases x <;> decide
  have h3 : toU16 ((x : Int) * 2 ^ 8) = x <<< 8 := by
    rw [Nat.shiftLeft_eq]
    have : ((x : Int) * 2 ^ 8) = ((x * 2 ^ 8 : Nat) : Int) := by push_cast; ring
    rw [this, toU16_natCast]
    omega
  simp only [operandCase, h1, h2, if_false, h3, Bool.false_eq_true, if_true]

theorem operandCase_reg4 (einval : Bool) (tab : List chip8_symbol) (x t : Nat) (hx : x ≤ 14) :
    operandCase einval tab CHIP8_OP_REG4 (some (regName x)) t = some (t ||| (x <<< 4)) := by
  have h1 : strtol16 einval (regName x).tail = ((x : Int), false) := by
    interval_cases x <;> cases einval <;> decide
  have h2 : ¬ ((regName x).head? ≠ some 'V' ∨ (regName x).length > 2 ∨ regName x = ['V','F']) := by
    interval_cases x <;> decide
  have h3 : toU16 ((x : Int) * 2 ^ 4) = x <<< 4 := by
    rw [Nat.shiftLeft_eq]
    have : ((x : Int) * 2 ^ 4) = ((x * 2 ^ 4 : Nat) : Int) := by push_cast; ring
    rw [this, toU16_natCast]
    omega
  simp only [operandCase, h1, h2, if_false, h3, Bool.false_eq_true, if_true]
  rfl


theorem operandCase_imm_ok (einval : Bool) (tab : List chip8_symbol) (kind : chip8_operands)
    (tok : List Char) (t bound : Nat) (hlit : isHexLiteral tok = true)
    (hk : (kind = CHIP8_OP_NIBBLE ∧ bound = 0xF) ∨ (kind = CHIP8_OP_BYTE ∧ bound = 0xFF))
    (hv : hexLiteralValue tok ≤ bound) :
    operandCase einval tab kind (some tok) t = some (t ||| hexLiteralValue tok) := by
  have hs := strtol16_literal einval tok hlit
  have hsmall : ¬ (LONG_MAX < (hexLiteralValue tok : Int)) := by
    unfold LONG_MAX
    rcases hk with ⟨_, hb⟩ | ⟨_, hb⟩ <;> omega
  rw [if_neg hsmall] at hs
  have hu : toU16 (hexLiteralValue tok : Int) = hexLiteralValue tok := by
    apply toU16_natCast
    rcases hk with ⟨_, hb⟩ | ⟨_, hb⟩ <;> omega
  rcases hk with ⟨hk, hb⟩ | ⟨hk, hb⟩
  · subst hk hb
    have : ((hexLiteralValue tok : Int) ≤ 15) := by omega
    simp [operandCase, hs, hu, this]
  · subst hk hb
    have : ((hexLiteralValue tok : Int) ≤ 255) := by omega
    simp [operandCase, hs, hu, this]

theorem operandCase_imm_big (einval : Bool) (tab : List chip8_symbol) (kind : chip8_operands)
    (tok : List Char) (t bound : Nat) (hlit : isHexLiteral tok = true)
    (hk : (kind = CHIP8_OP_NIBBLE ∧ bound = 0xF) ∨ (kind = CHIP8_OP_BYTE ∧ bound = 0xFF))
    (hv : bound < hexLiteralValue tok) :
    operandCase einval tab kind (some tok) t = none := by
  have hs := strtol16_literal einval tok hlit
  by_cases hbig : LONG_MAX < (hexLiteralValue tok : Int)
  · rw [if_pos hbig] at hs
    rcases hk with ⟨hk, hb⟩ | ⟨hk, hb⟩ <;> subst hk hb <;> simp [operandCase, hs]
  · rw [if_neg hbig] at hs
    rcases hk with ⟨hk, hb⟩ | ⟨hk, hb⟩
    · subst hk hb
      have : ¬ ((hexLiteralValue tok : Int) ≤ 15) := by omega
      simp [operandCase, hs, this]
    · subst hk hb
      have : ¬ ((hexLiteralValue tok : Int) ≤ 255) := by omega
      simp [operandCase, hs, this]

theorem hexLiteral_head (tok : List Char) (h : isHexLiteral tok = true) :
    ∃ c r, tok = c :: r ∧ (xdigit c).isSome = true := by
  match tok, h with
  | [], h => simp [isHexLiteral, literalBody] at h
  | [c], h => exact ⟨c, [], rfl, by simpa [isHexLiteral, literalBody] using h⟩
  | c0 :: x :: r, h =>
    refine ⟨c0, x :: r, rfl, ?_⟩
    by_cases hp : c0 = '0' ∧ (x = 'x' ∨ x = 'X')
    · rw [hp.1]; decide
    · have hb : literalBody (c0 :: x :: r) = c0 :: x :: r := by simp [literalBody, hp]
      simp only [isHexLiteral, hb, Bool.and_eq_true, decide_eq_true_eq, List.all_eq_true] at h
      exact h.2 c0 (List.mem_cons_self _ _)

theorem optab_LD :
    optab.filter (fun e => decide (['L','D'] = e.mnemonic)) =
    [⟨['L','D'], CHIP8_OP_LD_ADDR, CHIP8_OP_MASK_GSN, CHIP8_OPR_IX, [CHIP8_OP_IX, CHIP8_OP_SLAB, CHIP8_OP_NONE]⟩,
     ⟨['L','D'], CHIP8_OP_LD_BYTE, CHIP8_OP_MASK_GSN, CHIP8_OPR_IX, [CHIP8_OP_REG8, CHIP8_OP_BYTE, CHIP8_OP_NONE]⟩,
     ⟨['L','D'], CHIP8_OP_LD_REG, CHIP8_OP_MASK_EXT, CHIP8_OPR_IX, [CHIP8_OP_REG8, CHIP8_OP_REG4, CHIP8_OP_NONE]⟩,
     ⟨['L','D'], CHIP8_OP_LD_DT, CHIP8_OP_MASK_EXX, CHIP8_OPR_IX, [CHIP8_OP_REG8, CHIP8_OP_DT, CHIP8_OP_NONE]⟩,
     ⟨['L','D'], CHIP8_OP_LD_KEY, CHIP8_OP_MASK_EXX, CHIP8_OPR_IX, [CHIP8_OP_REG8, CHIP8_OP_KEY, CHIP8_OP_NONE]⟩,
     ⟨['L','D'], CHIP8_OP_LD_REG_DT, CHIP8_OP_MASK_EXX, CHIP8_OPR_IX, [CHIP8_OP_DT, CHIP8_OP_REG8, CHIP8_OP_NONE]⟩,
     ⟨['L','D'], CHIP8_OP_LD_REG_ST, CHIP8_OP_MASK_EXX, CHIP8_OPR_IX, [CHIP8_OP_ST, CHIP8_OP_REG8, CHIP8_OP_NONE]⟩,
     ⟨['L','D'], CHIP8_OP_LD_SPRITE, CHIP8_OP_MASK_EXX, CHIP8_OPR_IX, [CHIP8_OP_SPRITE, CHIP8_OP_REG8, CHIP8_OP_NONE]⟩,
     ⟨['L','D'], CHIP8_OP_LDS_BCD, CHIP8_OP_MASK_EXX, CHIP8_OPR_IX, [CHIP8_OP_BCD, CHIP8_OP_REG8, CHIP8_OP_NONE]⟩,
     ⟨['L','D'], CHIP8_OP_LDS_REGS, CHIP8_OP_MASK_EXX, CHIP8_OPR_IX, [CHIP8_OP_IXR, CHIP8_OP_REG8, CHIP8_OP_NONE]⟩,
     ⟨['L','D'], CHIP8_OP_LD_REGS, CHIP8_OP_MASK_EXX, CHIP8_OPR_IX, [CHIP8_OP_REG8, CHIP8_OP_IXR, CHIP8_OP_NONE]⟩] := by
  decide

theorem optab_SCD :
    optab.filter (fun e => decide (['S','C','D'] = e.mnemonic)) =
    [⟨['S','C','D'], CHIP8_OP_SCD, CHIP8_OP_MASK_GSS, CHIP8_OPR_IX, [CHIP8_OP_NIBBLE, CHIP8_OP_NONE, CHIP8_OP_NONE]⟩] := by
  decide

theorem or_ne_zero_left (a b : Nat) (h : a ≠ 0) : a ||| b ≠ 0 := by
  intro h0
  apply h
  apply Nat.eq_of_testBit_eq
  intro i
  have := congrArg (fun n => Nat.testBit n i) h0
  simp only [Nat.testBit_or, Nat.zero_testBit, Bool.or_eq_false_iff] at this
  simp [this.1]

theorem assemble_LD_byte_ok (einval : Bool) (symtab : List chip8_symbol) (x : Nat) (hx : x ≤ 14)
    (tok : List Char) (hlit : isHexLiteral tok = true) (hv : hexLiteralValue tok ≤ 0xFF) :
    assemble einval ['L','D'] (some (regName x)) (some tok) none symtab
      = 0x6000 ||| (x <<< 8) ||| hexLiteralValue tok := by
  have hr : regName x ≠ ['I'] := by simp [regName]
  have hnz : CHIP8_OP_LD_BYTE ||| x <<< 8 ||| hexLiteralValue tok ≠ 0 := by
    rw [Nat.or_assoc]; exact or_ne_zero_left _ _ (by decide)
  unfold assemble
  rw [assembleLoop_filter, optab_LD]
  simp only [assembleLoop, operandLoop,
    List.zip_cons_cons, List.zip_nil_right, operandCase_reg8 _ _ _ _ hx,
    operandCase_imm_ok einval symtab CHIP8_OP_BYTE tok _ 0xFF hlit (Or.inr ⟨rfl, rfl⟩) hv]
  simp [operandCase, hr, hnz]
  rfl

theorem assemble_LD_byte_big (einval : Bool) (symtab : List chip8_symbol) (x : Nat) (hx : x ≤ 14)
    (tok : List Char) (hlit : isHexLiteral tok = true) (hv : 0xFF < hexLiteralValue tok) :
    assemble einval ['L','D'] (some (regName x)) (some tok) none symtab = 0xFFFF := by
  obtain ⟨c, r, htok, hc⟩ := hexLiteral_head tok hlit
  have hV : tok.head? ≠ some 'V' := by
    rw [htok]; simpa using xdigit_ne hc (by decide)
  have hDT : tok ≠ ['D','T'] := by
    intro h; rw [h] at hlit; revert hlit; decide
  have hIXR : tok ≠ ['[','I',']'] := by
    intro h; rw [h] at hlit; revert hlit; decide
  have h4 : ∀ t, operandCase einval symtab CHIP8_OP_REG4 (some tok) t = none := by
    intro t; simp [operandCase, hV]
  unfold assemble
  rw [assembleLoop_filter, optab_LD]
  simp only [assembleLoop, operandLoop,
    List.zip_cons_cons, List.zip_nil_right, operandCase_reg8 _ _ _ _ hx, h4,
    operandCase_imm_big einval symtab CHIP8_OP_BYTE tok _ 0xFF hlit (Or.inr ⟨rfl, rfl⟩) hv]
  simp [operandCase, regName, hDT, hIXR]

theorem assemble_SCD_ok (einval : Bool) (symtab : List chip8_symbol)
    (tok : List Char) (hlit : isHexLiteral tok = true) (hv : hexLiteralValue tok ≤ 0xF) :
    assemble einval ['S','C','D'] (some tok) none none symtab = 0x00C0 ||| hexLiteralValue tok := by
  have hnz : CHIP8_OP_SCD ||| hexLiteralValue tok ≠ 0 := or_ne_zero_left _ _ (by decide)
  unfold assemble
  rw [assembleLoop_filter, optab_SCD]
  simp only [assembleLoop, operandLoop,
    List.zip_cons_cons, List.zip_nil_right,
    operandCase_imm_ok einval symtab CHIP8_OP_NIBBLE tok _ 0xF hlit (Or.inl ⟨rfl, rfl⟩) hv]
  simp [operandCase, hnz]
  rfl

theorem assemble_SCD_big (einval : Bool) (symtab : List chip8_symbol)
    (tok : List Char) (hlit : isHexLiteral tok = true) (hv : 0xF < hexLiteralValue tok) :
    assemble einval ['S','C','D'] (some tok) none none symtab = 0xFFFF := by
  unfold assemble
  rw [assembleLoop_filter, optab_SCD]
  simp only [assembleLoop, operandLoop,
    List.zip_cons_cons, List.zip_nil_right,
    operandCase_imm_big einval symtab CHIP8_OP_NIBBLE tok _ 0xF hlit (Or.inl ⟨rfl, rfl⟩) hv]
  simp

theorem optab_JP :
    optab.filter (fun e => decide (['J','P'] = e.mnemonic)) =
    [⟨['J','P'], CHIP8_OP_JP, CHIP8_OP_MASK_GSN, CHIP8_OPR_IX, [CHIP8_OP_SLAB, CHIP8_OP_NONE, CHIP8_OP_NONE]⟩,
     ⟨['J','P'], CHIP8_OP_JP_V0, CHIP8_OP_MASK_GSN, CHIP8_OPR_IX, [CHIP8_OP_REG0, CHIP8_OP_SLAB, CHIP8_OP_NONE]⟩] := by
  decide

theorem optab_CALL :
    optab.filter (fun e => decide (['C','A','L','L'] = e.mnemonic)) =
    [⟨['C','A','L','L'], CHIP8_OP_CALL, CHIP8_OP_MASK_GSN, CHIP8_OPR_IX, [CHIP8_OP_SLAB, CHIP8_OP_NONE, CHIP8_OP_NONE]⟩] := by
  decide

theorem operandCase_none_some (einval : Bool) (tab : List chip8_symbol) (s : List Char)
    (t : Nat) : operandCase einval tab CHIP8_OP_NONE (some s) t = none := by
  simp [operandCase]

theorem operandCase_slab_symbol (einval : Bool) (tab : List chip8_symbol) (n : List Char)
    (c t : Nat) (hc : c < 65536)
    (hlook : tab.foldl (fun w k => if k.symbol = n then k.address else w) (-1) = (c : Int)) :
    operandCase einval tab CHIP8_OP_SLAB (some n) t = some (t ||| c) := by
  have hne : ¬ ((c : Int) = -1) := by omega
  simp only [operandCase, hlook, hne, if_false, toU16_natCast c hc]

/-- The four formats with an address slot, for a name the table resolves to `c`. -/
theorem assemble_address_symbol (einval : Bool) (tab : List chip8_symbol) (n : List Char)
    (c : Nat) (hc : c < 65536)
    (hlook : tab.foldl (fun w k => if k.symbol = n then k.address else w) (-1) = (c : Int)) :
    assemble einval ['J','P'] (some n) none none tab = 0x1000 ||| c
    ∧ assemble einval ['C','A','L','L'] (some n) none none tab = 0x2000 ||| c
    ∧ assemble einval ['L','D'] (some ['I']) (some n) none tab = 0xA000 ||| c
    ∧ assemble einval ['J','P'] (some ['V','0']) (some n) none tab = 0xB000 ||| c := by
  have hs := fun t => operandCase_slab_symbol einval tab n c t hc hlook
  have h1 : CHIP8_OP_JP ||| c ≠ 0 := or_ne_zero_left _ _ (by decide)
  have h2 : CHIP8_OP_CALL ||| c ≠ 0 := or_ne_zero_left _ _ (by decide)
  have h3 : CHIP8_OP_LD_ADDR ||| c ≠ 0 := or_ne_zero_left _ _ (by decide)
  have h4 : CHIP8_OP_JP_V0 ||| c ≠ 0 := or_ne_zero_left _ _ (by decide)
  refine ⟨?_, ?_, ?_, ?_⟩
  · unfold assemble
    rw [assembleLoop_filter, optab_JP]
    simp only [assembleLoop, operandLoop,
      List.zip_cons_cons, List.zip_nil_right, hs]
    simp [operandCase, h1]
    rfl
  · unfold assemble
    rw [assembleLoop_filter, optab_CALL]
    simp only [assembleLoop, operandLoop,
      List.zip_cons_cons, List.zip_nil_right, hs]
    simp [operandCase, h2]
    rfl
  · unfold assemble
    rw [assembleLoop_filter, optab_LD]
    simp only [assembleLoop, operandLoop,
      List.zip_cons_cons, List.zip_nil_right, hs]
    simp [operandCase, h3]
    rfl
  · have hrow1 : operandLoop einval tab
        [(CHIP8_OP_SLAB, some ['V','0']), (CHIP8_OP_NONE, some n), (CHIP8_OP_NONE, none)]
        CHIP8_OP_JP = 0 := by
      cases h : operandCase einval tab CHIP8_OP_SLAB (some ['V','0']) CHIP8_OP_JP with
      | none => simp only [operandLoop, h]
      | some t => simp only [operandLoop, h, operandCase_none_some]
    unfold assemble
    rw [assembleLoop_filter, optab_JP]
    simp only [assembleLoop,
      List.zip_cons_cons, List.zip_nil_right, hrow1]
    simp only [operandLoop, hs]
    simp [operandCase, h4]
    rfl

theorem operandCase_byte_reg_einval (tab : List chip8_symbol) (y t : Nat) (hy : y ≤ 14) :
    operandCase true tab CHIP8_OP_BYTE (some (regName y)) t = none := by
  have h1 : strtol16 true (regName y) = (0, true) := by
    interval_cases y <;> decide
  simp [operandCase, h1]

/-- One table row with the slots `Vx, Vy` (register in bits 8-11, register in bits 4-7). -/
theorem operandLoop_reg_reg (einval : Bool) (tab : List chip8_symbol) (p x y : Nat)
    (hx : x ≤ 14) (hy : y ≤ 14) :
    operandLoop einval tab [(CHIP8_OP_REG8, some (regName x)), (CHIP8_OP_REG4, some (regName y)),
      (CHIP8_OP_NONE, none)] p = p ||| (x <<< 8) ||| (y <<< 4) := by
  simp only [operandLoop, operandCase_reg8 _ _ _ _ hx, operandCase_reg4 _ _ _ _ hy]
  simp [operandCase]

/-- A byte-immediate row offered `Vx, Vy` is given up when `strtol` reports `EINVAL`. -/
theorem operandLoop_reg_byte_einval (tab : List chip8_symbol) (p x y : Nat)
    (hx : x ≤ 14) (hy : y ≤ 14) :
    operandLoop true tab [(CHIP8_OP_REG8, some (regName x)), (CHIP8_OP_BYTE, some (regName y)),
      (CHIP8_OP_NONE, none)] p = 0 := by
  simp only [operandLoop, operandCase_reg8 _ _ _ _ hx, operandCase_byte_reg_einval _ _ _ hy]

/-- The register-register formats: for the seven mnemonics with a single table row
(`OR, AND, XOR, SUB, SHR, SUBN, SHL`) on either kind of C library, and for `SE, LD, ADD, SNE`
on a library whose `strtol` reports `EINVAL`, `M Vx, Vy` assembles to
`pattern | x << 8 | y << 4`. -/
theorem assemble_reg_reg (einval : Bool) (tab : List chip8_symbol) (m : List Char) (p x y : Nat)
    (hx : x ≤ 14) (hy : y ≤ 14)
    (hm : (m, p) ∈ [("SE".toList, 0x5000), ("LD".toList, 0x8000), ("OR".toList, 0x8001),
      ("AND".toList, 0x8002), ("XOR".toList, 0x8003), ("ADD".toList, 0x8004),
      ("SUB".toList, 0x8005), ("SHR".toList, 0x8006), ("SUBN".toList, 0x8007),
      ("SHL".toList, 0x800E), ("SNE".toList, 0x9000)])
    (hlibc : einval = true ∨ m ∈ ["OR".toList, "AND".toList, "XOR".toList, "SUB".toList,
      "SHR".toList, "SUBN".toList, "SHL".toList]) :
    assemble einval m (some (regName x)) (some (regName y)) none tab
      = p ||| (x <<< 8) ||| (y <<< 4) := by
  have hnz : ∀ q : Nat, q ≠ 0 → q ||| (x <<< 8) ||| (y <<< 4) ≠ 0 := fun q hq =>
    or_ne_zero_left _ _ (or_ne_zero_left _ _ hq)
  have hrr := fun q => operandLoop_reg_reg einval tab q x y hx hy
  have hrb := fun q => operandLoop_reg_byte_einval tab q x y hx hy
  have hone : ∀ (mn : List Char) (q : Nat) (msk : Nat), q ≠ 0 →
      optab.filter (fun e => decide (mn = e.mnemonic))
        = [⟨mn, q, msk, CHIP8_OPR_IX, [CHIP8_OP_REG8, CHIP8_OP_REG4, CHIP8_OP_NONE]⟩] →
      assemble einval mn (some (regName x)) (some (regName y)) none tab
        = q ||| (x <<< 8) ||| (y <<< 4) := by
    intro mn q msk hq hrows
    unfold assemble
    rw [assembleLoop_filter, hrows]
    simp only [assembleLoop, List.zip_cons_cons, List.zip_nil_right, hrr, ne_eq,
      not_true_eq_false, if_false, hnz q hq, not_false_eq_true, if_true]
  have htwo : ∀ (mn : List Char) (q0 q : Nat) (m0 msk : Nat) (rest : List chip8_operations),
      q ≠ 0 →
      optab.filter (fun e => decide (mn = e.mnemonic))
        = ⟨mn, q0, m0, CHIP8_OPR_IX, [CHIP8_OP_REG8, CHIP8_OP_BYTE, CHIP8_OP_NONE]⟩
          :: ⟨mn, q, msk, CHIP8_OPR_IX, [CHIP8_OP_REG8, CHIP8_OP_REG4, CHIP8_OP_NONE]⟩ :: rest →
      assemble true mn (some (regName x)) (some (regName y)) none tab
        = q ||| (x <<< 8) ||| (y <<< 4) := by
    intro mn q0 q m0 msk rest hq hrows
    have hrr2 := fun q => operandLoop_reg_reg true tab q x y hx hy
    unfold assemble
    rw [assembleLoop_filter, hrows]
    simp only [assembleLoop, List.zip_cons_cons, List.zip_nil_right, hrb, hrr2, ne_eq,
      not_true_eq_false, if_false, hnz q hq, not_false_eq_true, if_true]
  simp only [List.mem_cons, Prod.mk.injEq, List.mem_singleton, List.not_mem_nil, or_false] at hm
  rcases hm with h | h | h | h | h | h | h | h | h | h | h <;> obtain ⟨h1, h2⟩ := h <;>
    subst h1 h2
  · -- SE
    rcases hlibc with he | he
    · subst he
      exact htwo _ CHIP8_OP_SE_BYTE _ CHIP8_OP_MASK_GSN CHIP8_OP_MASK_EXT [] (by decide) (by decide)
    · exact absurd he (by decide)
  · -- LD
    rcases hlibc with he | he
    · subst he
      have hix : regName x ≠ ['I'] := by simp [regName]
      show assemble true ['L','D'] (some (regName x)) (some (regName y)) none tab = _
      unfold assemble
      rw [assembleLoop_filter, optab_LD]
      have hrr2 := fun q => operandLoop_reg_reg true tab q x y hx hy
      simp only [assembleLoop, List.zip_cons_cons, List.zip_nil_right, hrb, hrr2, ne_eq,
        not_true_eq_false, if_false, hnz _ (by decide : CHIP8_OP_LD_REG ≠ 0), not_false_eq_true,
        if_true]
      simp only [operandLoop, operandCase, Option.some.injEq, hix, if_false, not_true_eq_false]
      rw [if_neg (hnz _ (by decide : CHIP8_OP_LD_REG ≠ 0))]
      rfl
    · exact absurd he (by decide)
  · exact hone _ _ CHIP8_OP_MASK_EXT (by decide) (by decide)
  · exact hone _ _ CHIP8_OP_MASK_EXT (by decide) (by decide)
  · exact hone _ _ CHIP8_OP_MASK_EXT (by decide) (by decide)
  · -- ADD
    rcases hlibc with he | he
    · subst he
      exact htwo _ CHIP8_OP_ADD_BYTE _ CHIP8_OP_MASK_GSN CHIP8_OP_MASK_EXT
        [⟨"ADD".toList, CHIP8_OP_ADD_REG_IX, CHIP8_OP_MASK_EXX, CHIP8_OPR_IX,
          [CHIP8_OP_IX, CHIP8_OP_REG8, CHIP8_OP_NONE]⟩] (by decide) (by decide)
    · exact absurd he (by decide)
  · exact hone _ _ CHIP8_OP_MASK_EXT (by decide) (by decide)
  · exact hone _ _ CHIP8_OP_MASK_EXT (by decide) (by decide)
  · exact hone _ _ CHIP8_OP_MASK_EXT (by decide) (by decide)
  · exact hone _ _ CHIP8_OP_MASK_EXT (by decide) (by decide)
  · -- SNE
    rcases hlibc with he | he
    · subst he
      exact htwo _ CHIP8_OP_SNE_BYTE _ CHIP8_OP_MASK_GSN CHIP8_OP_MASK_EXT [] (by decide)
        (by decide)
    · exact absurd he (by decide)

/-! ### The decoder -/

theorem decodeSwitch_default (ix mask opc : Nat) (st : DecodeState)
    (h : decodeCase opc = false) :
    decodeSwitch ix mask opc st = ⟨0xFFFF, 0xFFF, 0xFF, st.regs⟩ := by
  simp only [decodeCase, Bool.or_eq_false_iff, decide_eq_false_iff_not] at h
  obtain ⟨⟨⟨⟨⟨⟨h1, h2⟩, h3⟩, h4⟩, h5⟩, h6⟩, h7⟩ := h
  simp only [decodeSwitch, h1, h2, h3, h4, h5, h6, h7, if_false]

theorem decodeSwitch_case_opcode (ix mask opc : Nat) (st : DecodeState)
    (h : decodeCase opc = true) :
    (decodeSwitch ix mask opc st).opcode = opc := by
  simp only [decodeCase, Bool.or_eq_true, decide_eq_true_eq] at h
  simp only [decodeSwitch]
  split_ifs <;> first | rfl | (exfalso; tauto)

theorem decodeCase_ne_illegal (opc : Nat) (h : decodeCase opc = true) : opc ≠ 0xFFFF := by
  intro e; subst e; revert h; decide

theorem decodeSwitch_case_idem (ix mask opc : Nat) (st : DecodeState) (hr : st.regs = 0xFF) :
    decodeSwitch ix mask opc { decodeSwitch ix mask opc st with regs := 0xFF }
      = decodeSwitch ix mask opc st := by
  cases st with
  | mk o s b r =>
    simp only at hr
    subst hr
    simp only [decodeSwitch]
    split_ifs <;> rfl

theorem decodeLoop_break (ix : Nat) (es : List chip8_operations) (opc : Nat) (st : DecodeState)
    (h : opc = st.opcode) : decodeLoop ix es opc st = st := by
  cases es with
  | nil => rfl
  | cons e es => simp only [decodeLoop, h, if_true]

theorem decodeLoop_illegal (ix : Nat) (es : List chip8_operations) (opc : Nat)
    (h : (decodeLoop ix es opc illegalState).opcode = 0xFFFF) :
    decodeLoop ix es opc illegalState = illegalState := by
  induction es generalizing opc with
  | nil => rfl
  | cons e es ih =>
    by_cases h0 : opc = illegalState.opcode
    · exact decodeLoop_break ix _ opc _ h0
    · simp only [decodeLoop, h0, if_false] at h ⊢
      by_cases hc : decodeCase (e.mask &&& ix) = true
      · have ho := decodeSwitch_case_opcode ix e.mask _ illegalState hc
        rw [decodeLoop_break ix es _ _ ho.symm] at h
        rw [ho] at h
        exact absurd h (decodeCase_ne_illegal _ hc)
      · have hd := decodeSwitch_default ix e.mask _ illegalState (by simpa using hc)
        have hd2 : decodeSwitch ix e.mask (e.mask &&& ix) illegalState = illegalState := hd
        rw [hd2] at h ⊢
        exact ih _ h

/-- Running the loop of `decode` a second time from its own result changes nothing, for
any table. -/
theorem decodeLoop_idem (ix : Nat) (es : List chip8_operations) (st : DecodeState) :
    decodeLoop ix es 0xFFFF
        { decodeLoop ix es 0xFFFF { st with regs := 0xFF } with regs := 0xFF }
      = decodeLoop ix es 0xFFFF { st with regs := 0xFF } := by
  cases es with
  | nil => rfl
  | cons e rest =>
    by_cases h0 : 0xFFFF = st.opcode
    · have hb : decodeLoop ix (e :: rest) 0xFFFF { st with regs := 0xFF }
          = { st with regs := 0xFF } := decodeLoop_break ix _ _ _ h0
      rw [hb]
      exact decodeLoop_break ix _ _ _ h0
    · have hstep : decodeLoop ix (e :: rest) 0xFFFF { st with regs := 0xFF }
          = decodeLoop ix rest (e.mask &&& ix)
              (decodeSwitch ix e.mask (e.mask &&& ix) { st with regs := 0xFF }) := by
        simp only [decodeLoop, h0, if_false]
      by_cases hc : decodeCase (e.mask &&& ix) = true
      · have ho := decodeSwitch_case_opcode ix e.mask _ { st with regs := 0xFF } hc
        rw [hstep, decodeLoop_break ix rest _ _ ho.symm]
        have hne : ¬ (0xFFFF = (decodeSwitch ix e.mask (e.mask &&& ix)
            { st with regs := 0xFF }).opcode) := by
          rw [ho]; exact fun h => decodeCase_ne_illegal _ hc h.symm
        simp only [decodeLoop, hne, if_false]
        rw [decodeSwitch_case_idem ix e.mask _ _ rfl]
        exact decodeLoop_break ix rest _ _ ho.symm
      · have hcf : decodeCase (e.mask &&& ix) = false := by simpa using hc
        have hd : decodeSwitch ix e.mask (e.mask &&& ix) { st with regs := 0xFF }
            = illegalState := decodeSwitch_default ix e.mask _ _ hcf
        rw [hstep, hd]
        by_cases hr : (decodeLoop ix rest (e.mask &&& ix) illegalState).opcode = 0xFFFF
        · rw [decodeLoop_illegal ix rest _ hr]
          exact decodeLoop_break ix _ _ _ rfl
        · have hne : ¬ (0xFFFF = (decodeLoop ix rest (e.mask &&& ix) illegalState).opcode) :=
            fun h => hr h.symm
          simp only [decodeLoop, hne, if_false]
          have hd2 := decodeSwitch_default ix e.mask (e.mask &&& ix)
            { decodeLoop ix rest (e.mask &&& ix) illegalState with regs := 0xFF } hcf
          rw [hd2]
          rfl

/-! ### The order of the table -/

theorem optab_length : optab.length = 42 := by decide

theorem optab_later_separates :
    ∀ i ∈ List.range 42, ∀ j ∈ List.range 42, j < i →
      separates (optab.getD i ⟨[], 0, 0, CHIP8_OPR_IX, []⟩)
        (optab.getD j ⟨[], 0, 0, CHIP8_OPR_IX, []⟩) = true := by
  decide

theorem and_of_and_mask (w m1 m2 p : Nat) (hm : m1 &&& m2 = m2) (h : w &&& m1 = p) :
    w &&& m2 = p &&& m2 := by
  rw [← h, Nat.and_assoc, hm]

/-! ### `strip` -/

theorem rstrip_prefix (body : List Char) :
    (body.reverse.dropWhile (fun c => c = ' ')).reverse <+: body := by
  have h := List.dropWhile_suffix (l := body.reverse) (fun c => decide (c = ' '))
  have h2 := List.reverse_prefix.mpr h
  rwa [List.reverse_reverse] at h2

/-- The result of `strip` is a prefix of the text between the leading spaces and the first
`;` or newline. -/
theorem strip_prefix_body (line : List Char) :
    strip line <+:
      ((line.takeWhile (fun c => c.toNat ≠ 0)).dropWhile (fun c => c = ' ')).takeWhile
        (fun c => c ≠ ';' ∧ c ≠ '\n') := by
  unfold strip
  dsimp only
  split
  · exact List.prefix_refl _
  · exact rstrip_prefix _

theorem head_of_prefix {α : Type} {l1 l2 : List α} (h : l1 <+: l2) (a : α)
    (ha : l1.head? = some a) : l2.head? = some a := by
  obtain ⟨t, rfl⟩ := h
  cases l1 with
  | nil => simp at ha
  | cons c r => simpa using ha

theorem strip_no_leading_space (line : List Char) : (strip line).head? ≠ some ' ' := by
  intro h
  have h1 := head_of_prefix (strip_prefix_body line) _ h
  have h2 := head_of_prefix (List.takeWhile_prefix _) _ h1
  have h3 := List.head?_dropWhile_not (fun c => decide (c = ' '))
    (line.takeWhile (fun c => c.toNat ≠ 0))
  rw [h2] at h3
  simp at h3

theorem strip_mem (line : List Char) (c : Char) (hc : c ∈ strip line) :
    c ≠ ';' ∧ c ≠ '\n' ∧ c.toNat ≠ 0 := by
  have h1 := (strip_prefix_body line).subset hc
  have h2 := List.mem_takeWhile_imp h1
  have h3 := (List.takeWhile_prefix _).subset h1
  have h4 := (List.dropWhile_suffix _).subset h3
  have h5 := List.mem_takeWhile_imp h4
  simp only [Bool.decide_and, Bool.and_eq_true, decide_eq_true_eq] at h2
  simp only [ne_eq, decide_not, Bool.not_eq_true', decide_eq_false_iff_not] at h5
  exact ⟨h2.1, h2.2, h5⟩

theorem strip_no_trailing_space (line : List Char)
    (h : ∃ c ∈ line.takeWhile (fun c => c.toNat ≠ 0), c = ';' ∨ c = '\n') :
    (strip line).getLast? ≠ some ' ' := by
  obtain ⟨c, hc, hterm⟩ := h
  have hrest : ((line.takeWhile (fun c => c.toNat ≠ 0)).dropWhile (fun c => c = ' ')).dropWhile
      (fun c => c ≠ ';' ∧ c ≠ '\n') ≠ [] := by
    intro hnil
    rw [List.dropWhile_eq_nil_iff] at hnil
    have hmem : c ∈ (line.takeWhile (fun c => c.toNat ≠ 0)).dropWhile (fun c => c = ' ') := by
      generalize line.takeWhile (fun c => c.toNat ≠ 0) = s at hc
      induction s with
      | nil => simp at hc
      | cons d s ih =>
        by_cases hd : d = ' '
        · have hcd : c ≠ d := by
            rcases hterm with h | h <;> (rw [h, hd]; decide)
          rcases List.mem_cons.mp hc with h | h
          · exact absurd h hcd
          · simpa [List.dropWhile, hd] using ih h
        · simpa [List.dropWhile, hd] using hc
    have := hnil c hmem
    simp only [Bool.decide_and, Bool.and_eq_true, decide_eq_true_eq] at this
    rcases hterm with h | h
    · exact this.1 h
    · exact this.2 h
  unfold strip
  dsimp only
  split
  · rename_i heq
    exact absurd heq hrest
  · rw [List.getLast?_reverse]
    intro hh
    have h3 := List.head?_dropWhile_not (fun c => decide (c = ' '))
      (((line.takeWhile (fun c => c.toNat ≠ 0)).dropWhile (fun c => c = ' ')).takeWhile
        (fun c => c ≠ ';' ∧ c ≠ '\n')).reverse
    rw [hh] at h3
    simp at h3

theorem takeWhile_space_replicate (l : List Char) :
    l.takeWhile (fun c => c = ' ')
      = List.replicate (l.takeWhile (fun c => c = ' ')).length ' ' :=
  List.eq_replicate_iff.mpr ⟨rfl, fun b hb => by
    have h := List.mem_takeWhile_imp hb
    simpa using h⟩

theorem strip_of_rest_nil (line : List Char)
    (h : ((line.takeWhile (fun c => c.toNat ≠ 0)).dropWhile (fun c => c = ' ')).dropWhile
      (fun c => c ≠ ';' ∧ c ≠ '\n') = []) :
    strip line = ((line.takeWhile (fun c => c.toNat ≠ 0)).dropWhile (fun c => c = ' ')).takeWhile
      (fun c => c ≠ ';' ∧ c ≠ '\n') := by
  unfold strip
  dsimp only
  rw [h]

theorem strip_of_rest_cons (line : List Char) (c : Char) (r : List Char)
    (h : ((line.takeWhile (fun c => c.toNat ≠ 0)).dropWhile (fun c => c = ' ')).dropWhile
      (fun c => c ≠ ';' ∧ c ≠ '\n') = c :: r) :
    strip line = ((((line.takeWhile (fun c => c.toNat ≠ 0)).dropWhile (fun c => c = ' ')).takeWhile
      (fun c => c ≠ ';' ∧ c ≠ '\n')).reverse.dropWhile (fun c => c = ' ')).reverse := by
  unfold strip
  dsimp only
  rw [h]

/-- What `strip` removes: spaces in front; behind, nothing when the line has no `;` and no
newline, and otherwise the spaces in front of the first `;` or newline and everything from
there on. -/
theorem strip_decomposition (line : List Char) :
    ∃ (k m : Nat) (rest : List Char),
      line.takeWhile (fun c => c.toNat ≠ 0)
        = List.replicate k ' ' ++ strip line ++ List.replicate m ' ' ++ rest
      ∧ (rest = [] → m = 0)
      ∧ (∀ c ∈ rest.head?, c = ';' ∨ c = '\n') := by
  obtain ⟨k, hs⟩ : ∃ k, line.takeWhile (fun c => c.toNat ≠ 0)
      = List.replicate k ' '
        ++ (line.takeWhile (fun c => c.toNat ≠ 0)).dropWhile (fun c => c = ' ') := by
    refine ⟨((line.takeWhile (fun c => c.toNat ≠ 0)).takeWhile (fun c => c = ' ')).length, ?_⟩
    rw [← takeWhile_space_replicate]
    exact (List.takeWhile_append_dropWhile _ _).symm
  have hl1 := (List.takeWhile_append_dropWhile (fun c => decide (c ≠ ';' ∧ c ≠ '\n'))
    ((line.takeWhile (fun c => c.toNat ≠ 0)).dropWhile (fun c => c = ' '))).symm
  cases hrest : ((line.takeWhile (fun c => c.toNat ≠ 0)).dropWhile (fun c => c = ' ')).dropWhile
      (fun c => c ≠ ';' ∧ c ≠ '\n') with
  | nil =>
    refine ⟨k, 0, [], ?_, fun _ => rfl, by simp⟩
    rw [strip_of_rest_nil line hrest]
    rw [hrest, List.append_nil] at hl1
    rw [← hl1]
    simpa using hs
  | cons c r =>
    have hc : c = ';' ∨ c = '\n' := by
      have h := List.head?_dropWhile_not (fun c => decide (c ≠ ';' ∧ c ≠ '\n'))
        ((line.takeWhile (fun c => c.toNat ≠ 0)).dropWhile (fun c => c = ' '))
      rw [hrest] at h
      simp only [List.head?_cons, decide_eq_false_iff_not, not_and_or, ne_eq,
        Decidable.not_not] at h
      exact h
    obtain ⟨m, hbody⟩ : ∃ m, ((line.takeWhile (fun c => c.toNat ≠ 0)).dropWhile
          (fun c => c = ' ')).takeWhile (fun c => c ≠ ';' ∧ c ≠ '\n')
        = strip line ++ List.replicate m ' ' := by
      rw [strip_of_rest_cons line c r hrest]
      generalize ((line.takeWhile (fun c => c.toNat ≠ 0)).dropWhile
          (fun c => c = ' ')).takeWhile (fun c => c ≠ ';' ∧ c ≠ '\n') = body
      refine ⟨(body.reverse.takeWhile (fun c => c = ' ')).length, ?_⟩
      have h := (List.takeWhile_append_dropWhile (fun c => decide (c = ' ')) body.reverse).symm
      have h2 := congrArg List.reverse h
      rw [List.reverse_reverse, List.reverse_append] at h2
      rw [takeWhile_space_replicate body.reverse, List.reverse_replicate] at h2
      simpa using h2
    refine ⟨k, m, c :: r, ?_, fun h => by simp at h, by simpa using hc⟩
    rw [hrest, hbody] at hl1
    rw [List.append_assoc, List.append_assoc, ← List.append_assoc (strip line), ← hl1]
    exact hs

/-- On a line without `;` and newline `strip` removes the leading spaces and nothing else. -/
theorem strip_without_terminator (line : List Char)
    (h : ∀ c ∈ line.takeWhile (fun c => c.toNat ≠ 0), c ≠ ';' ∧ c ≠ '\n') :
    strip line = (line.takeWhile (fun c => c.toNat ≠ 0)).dropWhile (fun c => c = ' ') := by
  have hall : ∀ c ∈ (line.takeWhile (fun c => c.toNat ≠ 0)).dropWhile (fun c => c = ' '),
      decide (c ≠ ';' ∧ c ≠ '\n') = true := fun c hc =>
    decide_eq_true (h c ((List.dropWhile_suffix _).subset hc))
  rw [strip_of_rest_nil line (List.dropWhile_eq_nil_iff.mpr hall)]
  exact List.takeWhile_eq_self_iff.mpr hall

/-- Every character other than a space that stands in front of the first `;` or newline of
the line is kept by `strip`. -/
theorem strip_keeps (line : List Char) (c : Char)
    (hc : c ∈ (line.takeWhile (fun c => c.toNat ≠ 0)).takeWhile (fun c => c ≠ ';' ∧ c ≠ '\n'))
    (hsp : c ≠ ' ') : c ∈ strip line := by
  obtain ⟨k, m, rest, hs, _, hrest⟩ := strip_decomposition line
  have hp : ∀ d ∈ List.replicate k ' ' ++ strip line ++ List.replicate m ' ',
      decide (d ≠ ';' ∧ d ≠ '\n') = true := by
    intro d hd
    simp only [List.mem_append, List.mem_replicate] at hd
    rcases hd with (⟨_, hd⟩ | hd) | ⟨_, hd⟩
    · rw [hd]; decide
    · exact decide_eq_true ⟨(strip_mem line d hd).1, (strip_mem line d hd).2.1⟩
    · rw [hd]; decide
  have htw : rest.takeWhile (fun c => decide (c ≠ ';' ∧ c ≠ '\n')) = [] := by
    cases rest with
    | nil => rfl
    | cons d r =>
      have hd := hrest d (by simp)
      rw [List.takeWhile_cons]
      rcases hd with hd | hd <;> simp [hd]
  rw [hs, List.takeWhile_append_of_pos hp, htw, List.append_nil] at hc
  simp only [List.mem_append, List.mem_replicate] at hc
  rcases hc with (⟨_, hc⟩ | hc) | ⟨_, hc⟩
  · exact absurd hc hsp
  · exact hc
  · exact absurd hc hsp

/-! ### The symbol table and its search -/

/-- The four formats with an address slot, for a name whose slot contributes the bits `u`. -/
theorem assemble_address_of_slot (einval : Bool) (tab : List chip8_symbol) (n : List Char)
    (u : Nat)
    (hs : ∀ t, operandCase einval tab CHIP8_OP_SLAB (some n) t = some (t ||| u)) :
    assemble einval ['J','P'] (some n) none none tab = 0x1000 ||| u
    ∧ assemble einval ['C','A','L','L'] (some n) none none tab = 0x2000 ||| u
    ∧ assemble einval ['L','D'] (some ['I']) (some n) none tab = 0xA000 ||| u
    ∧ assemble einval ['J','P'] (some ['V','0']) (some n) none tab = 0xB000 ||| u := by
  have h1 : CHIP8_OP_JP ||| u ≠ 0 := or_ne_zero_left _ _ (by decide)
  have h2 : CHIP8_OP_CALL ||| u ≠ 0 := or_ne_zero_left _ _ (by decide)
  have h3 : CHIP8_OP_LD_ADDR ||| u ≠ 0 := or_ne_zero_left _ _ (by decide)
  have h4 : CHIP8_OP_JP_V0 ||| u ≠ 0 := or_ne_zero_left _ _ (by decide)
  refine ⟨?_, ?_, ?_, ?_⟩
  · unfold assemble
    rw [assembleLoop_filter, optab_JP]
    simp only [assembleLoop, operandLoop, List.zip_cons_cons, List.zip_nil_right, hs]
    simp [operandCase, h1]
    rfl
  · unfold assemble
    rw [assembleLoop_filter, optab_CALL]
    simp only [assembleLoop, operandLoop, List.zip_cons_cons, List.zip_nil_right, hs]
    simp [operandCase, h2]
    rfl
  · unfold assemble
    rw [assembleLoop_filter, optab_LD]
    simp only [assembleLoop, operandLoop, List.zip_cons_cons, List.zip_nil_right, hs]
    simp [operandCase, h3]
    rfl
  · have hrow1 : operandLoop einval tab
        [(CHIP8_OP_SLAB, some ['V','0']), (CHIP8_OP_NONE, some n), (CHIP8_OP_NONE, none)]
        CHIP8_OP_JP = 0 := by
      cases h : operandCase einval tab CHIP8_OP_SLAB (some ['V','0']) CHIP8_OP_JP with
      | none => simp only [operandLoop, h]
      | some t => simp only [operandLoop, h, operandCase_none_some]
    unfold assemble
    rw [assembleLoop_filter, optab_JP]
    simp only [assembleLoop, List.zip_cons_cons, List.zip_nil_right, hrow1]
    simp only [operandLoop, hs]
    simp [operandCase, h4]
    rfl

/-- The table of pass 1 around the definition of a label of fewer than 30 characters, on a
source that pass 1 accepts. -/
theorem parse_table_split (uninit : Nat → List Char) (src : List Char)
    (pre post : List (List Char)) (l : List Char)
    (hsplit : getlines src = pre ++ l :: post) (hok : (parse uninit src).1 = true)
    (hl : isLabelLine l = true) (hshort : (labelName l).length < 30) :
    (parse uninit src).2 = symsFrom uninit pre 0 0
      ++ ⟨labelName l, toI16 (instrCount pre)⟩
        :: symsFrom uninit post (instrCount pre) (labelCount pre + 1) := by
  have hnotinstr : isInstrLine l = false := by
    simp only [isLabelLine, Bool.and_eq_true, decide_eq_true_eq] at hl
    simp [isInstrLine, hl.2]
  have h := parseLoop_snd uninit (getlines src) 0 [] hok
  rw [parse, h, hsplit, symsFrom_append]
  simp only [List.nil_append, symsFrom, hnotinstr, hl, Bool.false_eq_true, if_false, if_true,
    Nat.zero_add, List.length_nil, strncpy30_short _ _ hshort]

/-- No later entry holds the name, when no later line defines it. -/
theorem parse_later_names (uninit : Nat → List Char) (post : List (List Char)) (l : List Char)
    (hshort : (labelName l).length < 30)
    (hlast : ∀ l2 ∈ post, isLabelLine l2 = true → labelName l2 ≠ labelName l) (a n : Nat) :
    ∀ k ∈ symsFrom uninit post a n, k.symbol ≠ labelName l := by
  intro k hk
  obtain ⟨l2, hl2, hlab, i, hname⟩ := symsFrom_names _ _ _ _ k hk
  rw [hname]
  exact strncpy30_ne _ _ _ hshort (hlast l2 hl2 hlab)

theorem getlines_append_line (l rest : List Char) (hl : ∀ c ∈ l, c ≠ '\n') :
    getlines (l ++ '\n' :: rest) = (l ++ ['\n']) :: getlines rest := by
  have h : ∀ (l cur : List Char), (∀ c ∈ l, c ≠ '\n') →
      getlinesAux (l ++ '\n' :: rest) cur = (cur.reverse ++ l ++ ['\n']) :: getlinesAux rest [] := by
    intro l
    induction l with
    | nil => intro cur _; simp [getlinesAux]
    | cons c l ih =>
      intro cur hc
      have hcn : c ≠ '\n' := hc c (List.mem_cons_self _ _)
      have hstep : getlinesAux (c :: l ++ '\n' :: rest) cur
          = getlinesAux (l ++ '\n' :: rest) (c :: cur) := by
        show getlinesAux (c :: (l ++ '\n' :: rest)) cur = _
        simp only [getlinesAux, hcn, if_false]
      rw [hstep, ih (c :: cur) (fun d hd => hc d (List.mem_cons_of_mem _ hd))]
      simp
  simpa [getlines] using h l [] hl

theorem getlines_replicate (l : List Char) (hl : ∀ c ∈ l, c ≠ '\n') (n : Nat)
    (rest : List Char) :
    getlines ((List.replicate n (l ++ ['\n'])).flatten ++ rest)
      = List.replicate n (l ++ ['\n']) ++ getlines rest := by
  induction n with
  | zero => simp
  | succ n ih =>
    have e : (List.replicate (n + 1) (l ++ ['\n'])).flatten ++ rest
        = l ++ '\n' :: ((List.replicate n (l ++ ['\n'])).flatten ++ rest) := by
      simp [List.replicate_succ]
    rw [e, getlines_append_line l _ hl, ih]
    simp [List.replicate_succ]

/-- Pass 1 over `n` copies of one instruction line advances the counter by `n`. -/
theorem parseLoop_replicate (uninit : Nat → List Char) (l : List Char)
    (hl : isInstrLine l = true) (n : Nat)
    (rest : List (List Char)) (a : Nat) (st : List chip8_symbol) :
    parseLoop uninit (List.replicate n l ++ rest) a st = parseLoop uninit rest (a + n) st := by
  induction n generalizing a with
  | zero => simp
  | succ n ih =>
    simp only [isInstrLine, Bool.and_eq_true, decide_eq_true_eq] at hl
    rw [List.replicate_succ, List.cons_append]
    simp only [parseLoop, hl.1, hl.2, if_false, if_true, ne_eq, not_false_eq_true]
    rw [parseLoop_mod, ih]
    congr 1
    omega

/-! ### Pass 2 -/

theorem byteLength_append (a b : List Emitted) :
    byteLength (a ++ b) = byteLength a + byteLength b := by
  simp [byteLength]

/-- A successful pass 2 appends, for the instruction lines in order, what `emitLine` says. -/
theorem buildLoop_ok (einval : Bool) (symtab : List chip8_symbol) (ls : List (List Char))
    (acc out : List Emitted) (h : buildLoop einval symtab ls acc = some (true, out)) :
    out = acc ++ (ls.filter isInstrLine).filterMap (emitLine einval symtab)
    ∧ ((ls.filter isInstrLine).filterMap (emitLine einval symtab)).length = instrCount ls
    ∧ byteLength ((ls.filter isInstrLine).filterMap (emitLine einval symtab))
        = (ls.filter isDBLine).length
          + 2 * (ls.filter (fun l => isInstrLine l && !isDBLine l)).length := by
  induction ls generalizing acc with
  | nil =>
    simp only [buildLoop, Option.some.injEq, Prod.mk.injEq, true_and] at h
    simp [h, instrCount, byteLength]
  | cons l ls ih =>
    simp only [buildLoop] at h
    split_ifs at h with h1 h2 h3
    · have e1 : isInstrLine l = false := by simp [isInstrLine, h1]
      have e2 : isDBLine l = false := by simp [isDBLine, e1]
      have := ih acc h
      simpa [List.filter_cons, e1, e2, instrCount] using this
    · have e1 : isInstrLine l = false := by simp [isInstrLine, h2]
      have e2 : isDBLine l = false := by simp [isDBLine, e1]
      have := ih acc h
      simpa [List.filter_cons, e1, e2, instrCount] using this
    · have e1 : isInstrLine l = true := by simp [isInstrLine, h1, h2]
      cases htok : strtok [',', '\t', ' '] (strip l) with
      | nil => simp [htok] at h
      | cons opr ops =>
        simp only [htok] at h
        split_ifs at h with h4 h5
        · simp at h
        · have hem : emitLine einval symtab l = some (Emitted.byte
              (assemble einval opr ops[0]? ops[1]? ops[2]? symtab % 256)) := by
            simp [emitLine, lineTokens, htok, h5]
          have e2 : isDBLine l = true := by simp [isDBLine, e1, lineTokens, htok, h5]
          obtain ⟨i1, i2, i3⟩ := ih _ h
          refine ⟨?_, ?_, ?_⟩
          · simp [List.filter_cons, e1, hem, i1]
          · simp [List.filter_cons, e1, hem, instrCount] at i2 ⊢
            exact i2
          · simp only [List.filter_cons, e1, e2, if_true, List.filterMap_cons, hem,
              Bool.not_true, Bool.and_false, Bool.false_eq_true, if_false, List.length_cons]
            have : byteLength (Emitted.byte
                (assemble einval opr ops[0]? ops[1]? ops[2]? symtab % 256) ::
                List.filterMap (emitLine einval symtab) (List.filter isInstrLine ls))
                = 1 + byteLength (List.filterMap (emitLine einval symtab)
                    (List.filter isInstrLine ls)) := by
              simp [byteLength, byteSize]
            rw [this, i3]
            omega
        · have hem : emitLine einval symtab l = some (Emitted.word
              (assemble einval opr ops[0]? ops[1]? ops[2]? symtab)) := by
            simp [emitLine, lineTokens, htok, h5]
          have e2 : isDBLine l = false := by simp [isDBLine, lineTokens, htok, h5]
          obtain ⟨i1, i2, i3⟩ := ih _ h
          refine ⟨?_, ?_, ?_⟩
          · simp [List.filter_cons, e1, hem, i1]
          · simp [List.filter_cons, e1, hem, instrCount] at i2 ⊢
            exact i2
          · simp only [List.filter_cons, e1, e2, if_true, List.filterMap_cons, hem,
              Bool.not_false, Bool.and_true, Bool.false_eq_true, if_false, List.length_cons]
            have : byteLength (Emitted.word
                (assemble einval opr ops[0]? ops[1]? ops[2]? symtab) ::
                List.filterMap (emitLine einval symtab) (List.filter isInstrLine ls))
                = 2 + byteLength (List.filterMap (emitLine einval symtab)
                    (List.filter isInstrLine ls)) := by
              simp [byteLength, byteSize]
            rw [this, i3]
            omega

/-- A reported failure of pass 2 comes from an instruction line for which `assemble`
returned 0xFFFF, and the output is what the lines before it contributed. -/
theorem buildLoop_false (einval : Bool) (symtab : List chip8_symbol) (ls : List (List Char))
    (acc out : List Emitted) (h : buildLoop einval symtab ls acc = some (false, out)) :
    ∃ pre l post, ls = pre ++ l :: post ∧ isInstrLine l = true
      ∧ lineFails einval symtab l = true
      ∧ out = acc ++ (pre.filter isInstrLine).filterMap (emitLine einval symtab) := by
  induction ls generalizing acc with
  | nil => simp [buildLoop] at h
  | cons l ls ih =>
    simp only [buildLoop] at h
    split_ifs at h with h1 h2 h3
    · have e1 : isInstrLine l = false := by simp [isInstrLine, h1]
      obtain ⟨pre, l2, post, hs, hi, hf, ho⟩ := ih acc h
      exact ⟨l :: pre, l2, post, by simp [hs], hi, hf, by simp [List.filter_cons, e1, ho]⟩
    · have e1 : isInstrLine l = false := by simp [isInstrLine, h2]
      obtain ⟨pre, l2, post, hs, hi, hf, ho⟩ := ih acc h
      exact ⟨l :: pre, l2, post, by simp [hs], hi, hf, by simp [List.filter_cons, e1, ho]⟩
    · have e1 : isInstrLine l = true := by simp [isInstrLine, h1, h2]
      cases htok : strtok [',', '\t', ' '] (strip l) with
      | nil => simp [htok] at h
      | cons opr ops =>
        simp only [htok] at h
        split_ifs at h with h4 h5
        · simp only [Option.some.injEq, Prod.mk.injEq, true_and] at h
          refine ⟨[], l, ls, rfl, e1, ?_, by simp [h]⟩
          simp [lineFails, lineTokens, htok, h4]
        · have hem : emitLine einval symtab l = some (Emitted.byte
              (assemble einval opr ops[0]? ops[1]? ops[2]? symtab % 256)) := by
            simp [emitLine, lineTokens, htok, h5]
          obtain ⟨pre, l2, post, hs, hi, hf, ho⟩ := ih _ h
          exact ⟨l :: pre, l2, post, by simp [hs], hi, hf,
            by simp [List.filter_cons, e1, hem, ho]⟩
        · have hem : emitLine einval symtab l = some (Emitted.word
              (assemble einval opr ops[0]? ops[1]? ops[2]? symtab)) := by
            simp [emitLine, lineTokens, htok, h5]
          obtain ⟨pre, l2, post, hs, hi, hf, ho⟩ := ih _ h
          exact ⟨l :: pre, l2, post, by simp [hs], hi, hf,
            by simp [List.filter_cons, e1, hem, ho]⟩

/-- Where pass 2 never meets undefined behaviour, a line for which `assemble` returns 0xFFFF
makes it report failure. -/
theorem buildLoop_reports (einval : Bool) (symtab : List chip8_symbol) (ls : List (List Char))
    (acc : List Emitted) (hdef : ∀ l ∈ ls, lineUndefined l = false)
    (hf : ∃ l ∈ ls, isInstrLine l = true ∧ lineFails einval symtab l = true) :
    ∃ out, buildLoop einval symtab ls acc = some (false, out) := by
  induction ls generalizing acc with
  | nil => simp at hf
  | cons l ls ih =>
    have hrest : ∀ l2 ∈ ls, lineUndefined l2 = false :=
      fun l2 h2 => hdef l2 (List.mem_cons_of_mem _ h2)
    have hl := hdef l (List.mem_cons_self _ _)
    obtain ⟨lf, hmem, hfi, hff⟩ := hf
    have hnext : isInstrLine l = false ∨ lineFails einval symtab l = false →
        ∃ l ∈ ls, isInstrLine l = true ∧ lineFails einval symtab l = true := by
      intro hcase
      rcases List.mem_cons.mp hmem with rfl | hm
      · rcases hcase with hc | hc
        · rw [hc] at hfi; exact Bool.noConfusion hfi
        · rw [hc] at hff; exact Bool.noConfusion hff
      · exact ⟨lf, hm, hfi, hff⟩
    simp only [buildLoop]
    split_ifs with h1 h2 h3
    · exact ih acc hrest (hnext (Or.inl (by simp [isInstrLine, h1])))
    · exact ih acc hrest (hnext (Or.inl (by simp [isInstrLine, h2])))
    · have e1 : isInstrLine l = true := by simp [isInstrLine, h1, h2]
      simp [lineUndefined, e1, h3] at hl
    · have e1 : isInstrLine l = true := by simp [isInstrLine, h1, h2]
      cases htok : strtok [',', '\t', ' '] (strip l) with
      | nil => simp [lineUndefined, e1, lineTokens, htok] at hl
      | cons opr ops =>
        simp only []
        split_ifs with h4 h5
        · exact ⟨acc, rfl⟩
        · exact ih _ hrest (hnext (Or.inr (by simp [lineFails, lineTokens, htok, h4])))
        · exact ih _ hrest (hnext (Or.inr (by simp [lineFails, lineTokens, htok, h4])))

/-- C15 on the sources where pass 2 has defined behaviour throughout: the run reports
failure exactly when pass 1 failed or `assemble` returns 0xFFFF for some instruction line. -/
theorem build_reports_failure_iff (einval : Bool) (uninit : Nat → List Char) (src : List Char)
    (hdef : ∀ l ∈ getlines src, lineUndefined l = false) :
    (∃ out, chip8c_main einval uninit src = some (false, out)) ↔
      ((parse uninit src).1 = false
        ∨ ∃ l ∈ getlines src, isInstrLine l = true
            ∧ lineFails einval (parse uninit src).2 l = true) := by
  simp only [chip8c_main, build]
  by_cases hp : (parse uninit src).1 = false
  · simp [hp]
  · simp only [hp, if_false]
    constructor
    · rintro ⟨out, h⟩
      obtain ⟨pre, l, post, hs, hi, hf, _⟩ := buildLoop_false _ _ _ _ _ h
      exact Or.inr ⟨l, by simp [hs], hi, hf⟩
    · rintro (hf | hf)
      · exact Bool.noConfusion hf
      · exact buildLoop_reports _ _ _ _ hdef hf

/-! ### `decode` on the words of one format -/

theorem decodeCase_mem (opc : Nat) (h : decodeCase opc = true) : opc ∈ decodeConstants := by
  simp only [decodeCase, Bool.or_eq_true, decide_eq_true_eq] at h
  have e : decodeConstants =
      [CHIP8_OP_CLS, CHIP8_OP_RET, CHIP8_OP_SCR, CHIP8_OP_SCL, CHIP8_OP_EXIT, CHIP8_OP_LOW,
        CHIP8_OP_HIGH]
      ++ [CHIP8_OP_JP, CHIP8_OP_CALL, CHIP8_OP_LD_ADDR, CHIP8_OP_JP_V0]
      ++ [CHIP8_OP_SE_BYTE, CHIP8_OP_SNE_BYTE, CHIP8_OP_LD_BYTE, CHIP8_OP_ADD_BYTE,
        CHIP8_OP_RND_BYTE]
      ++ [CHIP8_OP_SE_REG, CHIP8_OP_LD_REG, CHIP8_OP_OR, CHIP8_OP_AND, CHIP8_OP_XOR,
        CHIP8_OP_ADD_REG, CHIP8_OP_SUB, CHIP8_OP_SHR, CHIP8_OP_SUBN, CHIP8_OP_SHL,
        CHIP8_OP_SNE_REG]
      ++ [CHIP8_OP_SKP, CHIP8_OP_SKNP, CHIP8_OP_LD_DT, CHIP8_OP_LD_KEY, CHIP8_OP_LD_REG_DT,
        CHIP8_OP_LD_REG_ST, CHIP8_OP_ADD_REG_IX, CHIP8_OP_LD_SPRITE, CHIP8_OP_LDS_BCD,
        CHIP8_OP_LDS_REGS, CHIP8_OP_LD_REGS]
      ++ [CHIP8_OP_SCD] ++ [CHIP8_OP_DRW_NIBBLE] := rfl
  rw [e]
  simp only [List.mem_append, List.mem_singleton]
  exact h

theorem decodeSwitch_addr (ix mask opc : Nat) (st : DecodeState)
    (h : opc ∈ [CHIP8_OP_JP, CHIP8_OP_CALL, CHIP8_OP_LD_ADDR, CHIP8_OP_JP_V0]) :
    decodeSwitch ix mask opc st
      = { st with slab := ((mask ^^^ 0xFFFF) &&& ix) % 65536, opcode := opc } := by
  simp only [List.mem_cons, List.mem_singleton, List.not_mem_nil, or_false] at h
  rcases h with rfl | rfl | rfl | rfl <;> rfl

theorem decodeSwitch_byte (ix mask opc : Nat) (st : DecodeState)
    (h : opc ∈ [CHIP8_OP_SE_BYTE, CHIP8_OP_SNE_BYTE, CHIP8_OP_LD_BYTE, CHIP8_OP_ADD_BYTE,
      CHIP8_OP_RND_BYTE]) :
    decodeSwitch ix mask opc st
      = { st with byte := (0x00FF &&& ix) % 256,
                  regs := (((0x0F00 &&& ix) >>> 4) ||| 0x0F) % 256, opcode := opc } := by
  simp only [List.mem_cons, List.mem_singleton, List.not_mem_nil, or_false] at h
  rcases h with rfl | rfl | rfl | rfl | rfl <;> rfl

theorem decodeSwitch_LD_REG (ix mask : Nat) (st : DecodeState) :
    decodeSwitch ix mask CHIP8_OP_LD_REG st
      = { st with regs := ((0x0FF0 &&& ix) >>> 4) % 256, opcode := CHIP8_OP_LD_REG } := rfl

/-- The loop of `decode` up to the first row whose masked word has a `case` label: if every
result the `switch` can store on the way satisfies `R`, so does the result of the loop. -/
theorem decodeLoop_first_hit (ix : Nat) (R : DecodeState → Prop)
    (pre : List chip8_operations) (e : chip8_operations) (post : List chip8_operations)
    (opc : Nat) (st : DecodeState)
    (hpre : ∀ r ∈ pre, decodeCase (r.mask &&& ix) = true →
      ∀ s, R (decodeSwitch ix r.mask (r.mask &&& ix) s))
    (hnf : ∀ r ∈ pre, r.mask &&& ix ≠ 0xFFFF)
    (he : decodeCase (e.mask &&& ix) = true)
    (hR : ∀ s, R (decodeSwitch ix e.mask (e.mask &&& ix) s))
    (hopc : opc ≠ st.opcode) :
    R (decodeLoop ix (pre ++ e :: post) opc st) := by
  induction pre generalizing opc st with
  | nil =>
    simp only [List.nil_append, decodeLoop, hopc, if_false]
    rw [decodeLoop_break ix post _ _ (decodeSwitch_case_opcode ix e.mask _ st he).symm]
    exact hR st
  | cons r pre ih =>
    simp only [List.cons_append, decodeLoop, hopc, if_false]
    by_cases hc : decodeCase (r.mask &&& ix) = true
    · rw [decodeLoop_break ix _ _ _ (decodeSwitch_case_opcode ix r.mask _ st hc).symm]
      exact hpre r (List.mem_cons_self _ _) hc st
    · have hcf : decodeCase (r.mask &&& ix) = false := by simpa using hc
      rw [decodeSwitch_default ix r.mask _ st hcf]
      apply ih
      · exact fun r2 h2 => hpre r2 (List.mem_cons_of_mem _ h2)
      · exact fun r2 h2 => hnf r2 (List.mem_cons_of_mem _ h2)
      · exact hnf r (List.mem_cons_self _ _)

theorem optab_split :
    optab = optab.take 8
      ++ ⟨['J','P'], CHIP8_OP_JP, CHIP8_OP_MASK_GSN, CHIP8_OPR_IX,
          [CHIP8_OP_SLAB, CHIP8_OP_NONE, CHIP8_OP_NONE]⟩ :: optab.drop 9 := by
  decide

theorem optab_take8_masks : ∀ r ∈ optab.take 8, r.mask = 0xFFFF ∨ r.mask = 0xFFF0 := by
  decide

theorem and_and_of_mask (m w k : Nat) (h : m &&& k = k) : (m &&& w) &&& k = w &&& k := by
  rw [Nat.and_comm m w, Nat.and_assoc, h]

theorem decodeConstants_nibble8 :
    ∀ c ∈ decodeConstants, c &&& 0xF000 = 0x8000 → c &&& 0x0FF0 = 0 := by
  decide

theorem nibblePatterns_facts :
    ∀ p ∈ nibblePatterns, p &&& 0xF000 = p ∧ 0xFFF &&& p = 0 ∧ p < 65536 ∧ p ≠ 0xF000
      ∧ decodeCase p = true := by
  decide

theorem decodeConstants_nibble :
    ∀ c ∈ decodeConstants, ∀ p ∈ nibblePatterns, c &&& 0xF000 = p → c = p := by
  decide

theorem and_low12 (c : Nat) (hc : c < 0x1000) : c &&& 0xFFF = c := by
  have h := Nat.and_pow_two_sub_one_eq_mod c 12
  have e : (2 ^ 12 - 1 : Nat) = 0xFFF := by decide
  rw [e] at h
  rw [h]
  exact Nat.mod_eq_of_lt hc

/-- A value below 0x1000 has no bit in common with a value that has none below bit 12. -/
theorem and_eq_zero_of_low12 (c k : Nat) (hc : c < 0x1000) (hk : 0xFFF &&& k = 0) :
    c &&& k = 0 := by
  rw [← and_low12 c hc, Nat.and_assoc, hk]
  exact Nat.and_zero _

theorem or_and_top (p c : Nat) (hp : p &&& 0xF000 = p) (hc : c < 0x1000) :
    (p ||| c) &&& 0xF000 = p := by
  rw [Nat.and_distrib_right, hp, and_eq_zero_of_low12 c 0xF000 hc (by decide)]
  exact Nat.or_zero _

theorem or_and_low (p c k : Nat) (hpk : p &&& k = 0) : (p ||| c) &&& k = c &&& k := by
  rw [Nat.and_distrib_right, hpk]
  exact Nat.zero_or _

theorem xor_or_of_and_eq_zero (p a : Nat) (h : p &&& a = 0) : p ^^^ (p ||| a) = a := by
  apply Nat.eq_of_testBit_eq
  intro i
  have hi := congrArg (fun n => Nat.testBit n i) h
  simp only [Nat.testBit_and, Nat.zero_testBit] at hi
  simp only [Nat.testBit_xor, Nat.testBit_or]
  cases hp : p.testBit i <;> cases ha : a.testBit i <;> simp_all

/-- What `decode` stores in `slab` when the masked word is the pattern itself: the rest of the
word. -/
theorem slab_of_masked (p c m : Nat) (hp : p ∈ nibblePatterns) (hc : c < 0x1000)
    (hm : m &&& (p ||| c) = p) : ((m ^^^ 0xFFFF) &&& (p ||| c)) % 65536 = c := by
  obtain ⟨_, hp2, hp3, _, _⟩ := nibblePatterns_facts p hp
  have hw : p ||| c < 2 ^ 16 :=
    Nat.or_lt_two_pow (by simpa using hp3) (by omega)
  have h1 : 0xFFFF &&& (p ||| c) = p ||| c := by
    rw [Nat.and_comm]
    have h := Nat.and_pow_two_sub_one_eq_mod (p ||| c) 16
    have e : (2 ^ 16 - 1 : Nat) = 0xFFFF := by decide
    rw [e] at h
    rw [h]
    exact Nat.mod_eq_of_lt hw
  have hpc : p &&& c = 0 := by
    rw [Nat.and_comm]; exact and_eq_zero_of_low12 c p hc hp2
  rw [Nat.and_xor_distrib_right, hm, h1, xor_or_of_and_eq_zero p c hpc]
  exact Nat.mod_eq_of_lt (by omega)

/-- The result of `decode` on a word made of one of the top-nibble patterns and a rest below
0x1000: whatever the `switch` stores for that pattern, under any of the masks that leave the
pattern alone. -/
theorem decode_nibble_family (R : DecodeState → Prop) (p c : Nat) (st : DecodeState)
    (hp : p ∈ nibblePatterns) (hc : c < 0x1000) (hst : st.opcode ≠ 0xFFFF)
    (hR : ∀ m s, m &&& (p ||| c) = p → R (decodeSwitch (p ||| c) m p s)) :
    R (decode (p ||| c) st) := by
  obtain ⟨hp1, hp2, hp3, hp4, hp5⟩ := nibblePatterns_facts p hp
  have htop := or_and_top p c hp1 hc
  have hmask : ∀ r ∈ optab.take 8, (r.mask &&& (p ||| c)) &&& 0xF000 = p := by
    intro r hr
    rcases optab_take8_masks r hr with hm | hm <;> rw [hm]
    · exact (and_and_of_mask _ _ _ (by decide)).trans htop
    · exact (and_and_of_mask _ _ _ (by decide)).trans htop
  have he : CHIP8_OP_MASK_GSN &&& (p ||| c) = p := by
    rw [Nat.and_comm]; exact htop
  unfold decode
  rw [optab_split]
  apply decodeLoop_first_hit (p ||| c) R
  · intro r hr hc2 s
    have h1 := decodeConstants_nibble _ (decodeCase_mem _ hc2) p hp (hmask r hr)
    rw [h1]
    exact hR r.mask s h1
  · intro r hr hff
    have h1 := hmask r hr
    rw [hff] at h1
    exact hp4 h1.symm
  · show decodeCase (CHIP8_OP_MASK_GSN &&& (p ||| c)) = true
    rw [he]; exact hp5
  · intro s
    show R (decodeSwitch (p ||| c) CHIP8_OP_MASK_GSN (CHIP8_OP_MASK_GSN &&& (p ||| c)) s)
    rw [he]
    exact hR _ s he
  · exact fun h => hst h.symm

theorem decode_address_word (p a : Nat) (st : DecodeState)
    (hp : p ∈ [CHIP8_OP_JP, CHIP8_OP_CALL, CHIP8_OP_LD_ADDR, CHIP8_OP_JP_V0])
    (ha : a ≤ 0xFFF) (hst : st.opcode ≠ 0xFFFF) :
    (decode (p ||| a) st).opcode = p ∧ (decode (p ||| a) st).slab = a := by
  have hp9 : p ∈ nibblePatterns := by
    simp only [nibblePatterns, List.mem_cons, List.mem_singleton, List.not_mem_nil,
      or_false] at hp ⊢
    tauto
  apply decode_nibble_family (fun s => s.opcode = p ∧ s.slab = a) p a st hp9 (by omega) hst
  intro m s hm
  rw [decodeSwitch_addr _ _ _ _ hp]
  exact ⟨rfl, slab_of_masked p a m hp9 (by omega) hm⟩

theorem reg_byte_facts :
    ∀ x < 15, ∀ b < 256, (x <<< 8) ||| b < 0x1000
      ∧ (((x <<< 8) ||| b) &&& 0x00FF) % 256 = b
      ∧ (((((x <<< 8) ||| b) &&& 0x0F00) >>> 4) ||| 0x0F) % 256 = (x <<< 4) ||| 0x0F := by
  decide!

theorem decode_byte_word (p x b : Nat) (st : DecodeState)
    (hp : p ∈ [CHIP8_OP_SE_BYTE, CHIP8_OP_SNE_BYTE, CHIP8_OP_LD_BYTE, CHIP8_OP_ADD_BYTE,
      CHIP8_OP_RND_BYTE])
    (hx : x ≤ 0xE) (hb : b ≤ 0xFF) (hst : st.opcode ≠ 0xFFFF) :
    (decode (p ||| (x <<< 8) ||| b) st).opcode = p
    ∧ (decode (p ||| (x <<< 8) ||| b) st).byte = b
    ∧ (decode (p ||| (x <<< 8) ||| b) st).regs = (x <<< 4) ||| 0x0F := by
  have hp9 : p ∈ nibblePatterns := by
    simp only [nibblePatterns, List.mem_cons, List.mem_singleton, List.not_mem_nil,
      or_false] at hp ⊢
    tauto
  obtain ⟨_, hp2, _, _, _⟩ := nibblePatterns_facts p hp9
  obtain ⟨f1, f2, f3⟩ := reg_byte_facts x (by omega) b (by omega)
  have hpk : ∀ k, 0xFFF &&& k = k → p &&& k = 0 := by
    intro k hk
    rw [← hk, ← Nat.and_assoc, Nat.and_comm p, hp2]
    exact Nat.zero_and _
  rw [Nat.or_assoc]
  apply decode_nibble_family
    (fun s => s.opcode = p ∧ s.byte = b ∧ s.regs = (x <<< 4) ||| 0x0F) p _ st hp9 f1 hst
  intro m s _
  rw [decodeSwitch_byte _ _ _ _ hp]
  refine ⟨rfl, ?_, ?_⟩
  · show (0x00FF &&& (p ||| (x <<< 8 ||| b))) % 256 = b
    rw [Nat.and_comm, or_and_low p _ _ (hpk _ (by decide))]
    exact f2
  · show (((0x0F00 &&& (p ||| (x <<< 8 ||| b))) >>> 4) ||| 0x0F) % 256 = _
    rw [Nat.and_comm, or_and_low p _ _ (hpk _ (by decide))]
    exact f3

/-! ### The address and byte slots on literals -/

/-- The address slot offered a hexadecimal literal of at most 16 bits, with no symbol defined:
the literal's value is ORed into the word. -/
theorem operandCase_slab_literal (einval : Bool) (tok : List Char) (t : Nat)
    (hlit : isHexLiteral tok = true) (hv : hexLiteralValue tok < 65536) :
    operandCase einval [] CHIP8_OP_SLAB (some tok) t = some (t ||| hexLiteralValue tok) := by
  have hs := strtol16_literal einval tok hlit
  have hsmall : ¬ (LONG_MAX < (hexLiteralValue tok : Int)) := by
    unfold LONG_MAX; omega
  rw [if_neg hsmall] at hs
  simp [operandCase, hs, toU16_natCast _ hv]

/-- A mnemonic whose first table row has the slots `Vx, byte`: that row assembles
`M Vx, b` for a literal `b` of at most 0xFF. -/
theorem assemble_reg_byte (einval : Bool) (tab : List chip8_symbol) (m : List Char)
    (p msk : Nat) (x : Nat) (tok : List Char)
    (hrow : (optab.filter (fun e => decide (m = e.mnemonic))).head?
      = some ⟨m, p, msk, CHIP8_OPR_IX, [CHIP8_OP_REG8, CHIP8_OP_BYTE, CHIP8_OP_NONE]⟩)
    (hp : p ≠ 0) (hx : x ≤ 14) (hlit : isHexLiteral tok = true)
    (hv : hexLiteralValue tok ≤ 0xFF) :
    assemble einval m (some (regName x)) (some tok) none tab
      = p ||| (x <<< 8) ||| hexLiteralValue tok := by
  have hnz : p ||| x <<< 8 ||| hexLiteralValue tok ≠ 0 :=
    or_ne_zero_left _ _ (or_ne_zero_left _ _ hp)
  unfold assemble
  rw [assembleLoop_filter]
  cases hrows : optab.filter (fun e => decide (m = e.mnemonic)) with
  | nil => rw [hrows] at hrow; exact absurd hrow (by simp)
  | cons e rest =>
    rw [hrows, List.head?_cons, Option.some.injEq] at hrow
    subst hrow
    simp only [assembleLoop, operandLoop,
      List.zip_cons_cons, List.zip_nil_right, operandCase_reg8 _ _ _ _ hx,
      operandCase_imm_ok einval tab CHIP8_OP_BYTE tok _ 0xFF hlit (Or.inr ⟨rfl, rfl⟩) hv]
    simp [operandCase, hnz]

/-! ### `strip` as a run on memory -/

theorem mem_after_left (a : Access) (as : List Access) (r : StripRun) (h : a ∈ as) :
    a ∈ (StripRun.after as r).1 :=
  List.mem_append_left _ h

theorem mem_after_right (a : Access) (as : List Access) (r : StripRun) (h : a ∈ r.1) :
    a ∈ (StripRun.after as r).1 :=
  List.mem_append_right _ h

/-- The backward loop reads the cell in front of its starting point before any test. -/
theorem stripBack_reads (start : Int) (l r : List Char) (p : Int) :
    Access.read (p - 1) ∈ (stripBack start l r p).1 := by
  cases l with
  | nil => simp [stripBack]
  | cons c l =>
    unfold stripBack
    split_ifs <;> exact mem_after_left _ _ _ (List.mem_singleton_self _)

/-- The zeroing loop reads the cell behind its starting point before any test. -/
theorem stripZero_reads (start : Int) (l : List Char) (cur : Char) (r : List Char) (p : Int) :
    Access.read (p + 1) ∈ (stripZero start l cur r p).1 := by
  cases r with
  | nil => simp [stripZero]
  | cons c r =>
    unfold stripZero
    split_ifs <;> exact mem_after_left _ _ _ (by simp)

theorem replicate_succ_append (k : Nat) (c : Char) (l : List Char) :
    List.replicate (k + 1) c ++ l = List.replicate k c ++ c :: l := by
  rw [List.replicate_succ', List.append_assoc]
  rfl

/-- The first loop walks over leading spaces. -/
theorem stripSkip_spaces (a : Access) (k : Nat) (l r : List Char) (p : Int)
    (h : a ∈ (stripSkip (List.replicate k ' ' ++ l) r (p + k)).1) :
    a ∈ (stripSkip l (List.replicate k ' ' ++ r) p).1 := by
  induction k generalizing l p with
  | zero => simpa using h
  | succ k ih =>
    refine mem_after_right _ _ _ (ih (' ' :: l) (p + 1) ?_)
    rw [replicate_succ_append] at h
    have e : p + ((k + 1 : Nat) : Int) = p + 1 + (k : Int) := by push_cast; ring
    rw [e] at h
    exact h

/-- The backward loop walks over the spaces in front of it. -/
theorem stripBack_spaces (a : Access) (start : Int) (k : Nat) (l r : List Char) (p : Int)
    (h : a ∈ (stripBack start l (List.replicate k ' ' ++ r) (p - k)).1) :
    a ∈ (stripBack start (List.replicate k ' ' ++ l) r p).1 := by
  induction k generalizing r p with
  | zero => simpa using h
  | succ k ih =>
    refine mem_after_right _ _ _ (ih (' ' :: r) (p - 1) ?_)
    rw [replicate_succ_append] at h
    have e : p - ((k + 1 : Nat) : Int) = p - 1 - (k : Int) := by push_cast; ring
    rw [e] at h
    exact h

/-- The second loop walks over characters other than NUL, `;` and newline. -/
theorem stripScan_body (a : Access) (start : Int) (body l r : List Char) (p : Int)
    (hb : ∀ c ∈ body, c.toNat ≠ 0 ∧ c ≠ ';' ∧ c ≠ '\n')
    (h : a ∈ (stripScan start (body.reverse ++ l) r (p + body.length)).1) :
    a ∈ (stripScan start l (body ++ r) p).1 := by
  induction body generalizing l p with
  | nil => simpa using h
  | cons c body ih =>
    obtain ⟨h0, h1, h2⟩ := hb c (List.mem_cons_self _ _)
    have hstep : stripScan start l (c :: body ++ r) p
        = StripRun.after [Access.read p, Access.read p, Access.read p]
            (stripScan start (c :: l) (body ++ r) (p + 1)) := by
      simp only [List.cons_append, stripScan, h0, h1, h2, if_false]
      rfl
    rw [hstep]
    refine mem_after_right _ _ _
      (ih (c :: l) (p + 1) (fun d hd => hb d (List.mem_cons_of_mem _ hd)) ?_)
    have e : p + ((c :: body).length : Int) = p + 1 + (body.length : Int) := by
      simp only [List.length_cons]; push_cast; ring
    rw [e] at h
    simpa using h

/-- A line with nothing but spaces in front of its `;` or newline: the backward loop reads the
cell in front of the line. -/
theorem stripRun_reads_before (before rest : List Char) (k : Nat) (c : Char) (t : List Char)
    (hc : c = ';' ∨ c = '\n') :
    Access.read (-1)
      ∈ (stripRun before (lineBuffer (List.replicate k ' ' ++ c :: t) rest)).1 := by
  have hback : ∀ r, Access.read (-1)
      ∈ (stripBack k (List.replicate k ' ' ++ before) r k).1 := by
    intro r
    apply stripBack_spaces
    have h := stripBack_reads k before (List.replicate k ' ' ++ r) ((k : Int) - k)
    have e : (k : Int) - k - 1 = -1 := by omega
    rw [e] at h
    exact h
  unfold stripRun lineBuffer
  rw [List.append_assoc]
  apply stripSkip_spaces
  rw [zero_add]
  rcases hc with hc | hc <;> subst hc
  · exact mem_after_right _ _ _ (mem_after_right _ _ _ (mem_after_right _ _ _ (hback _)))
  · exact mem_after_right _ _ _ (mem_after_right _ _ _ (mem_after_right _ _ _ (hback _)))

theorem stripRun_reads_behind_body (before rest : List Char) (k : Nat) (body : List Char)
    (hhead : body.head? ≠ some ' ')
    (hb : ∀ c ∈ body, c.toNat ≠ 0 ∧ c ≠ ';' ∧ c ≠ '\n') :
    Access.read ((k : Int) + body.length + 1)
      ∈ (stripRun before (lineBuffer (List.replicate k ' ' ++ body) rest)).1 := by
  have hscan : ∀ l, Access.read ((k : Int) + body.length + 1)
      ∈ (stripScan k l (body ++ Char.ofNat 0 :: rest) k).1 := by
    intro l
    apply stripScan_body _ _ _ _ _ _ hb
    exact mem_after_right _ _ _ (mem_after_right _ _ _ (stripZero_reads _ _ _ _ _))
  unfold stripRun lineBuffer
  rw [List.append_assoc]
  apply stripSkip_spaces
  rw [zero_add]
  cases body with
  | nil => exact mem_after_right _ _ _ (hscan _)
  | cons d body =>
    have h0 : d.toNat ≠ 0 := (hb d (List.mem_cons_self _ _)).1
    have h1 : d ≠ ' ' := by
      intro h; rw [h] at hhead; exact hhead rfl
    have hstep : stripSkip (List.replicate k ' ' ++ before)
          (d :: body ++ Char.ofNat 0 :: rest) k
        = StripRun.after [Access.read k, Access.read k]
            (stripScan k (List.replicate k ' ' ++ before)
              (d :: body ++ Char.ofNat 0 :: rest) k) := by
      simp only [List.cons_append, stripSkip, h0, h1, if_false]
      rfl
    rw [hstep]
    exact mem_after_right _ _ _ (hscan _)

/-- A line without `;` and newline: the zeroing loop reads the cell behind the NUL. -/
theorem stripRun_reads_behind (before rest line : List Char)
    (hl : ∀ c ∈ line, c.toNat ≠ 0 ∧ c ≠ ';' ∧ c ≠ '\n') :
    Access.read (line.length + 1) ∈ (stripRun before (lineBuffer line rest)).1 := by
  have hsp : line.takeWhile (fun c => c = ' ')
      = List.replicate (line.takeWhile (fun c => c = ' ')).length ' ' :=
    List.eq_replicate_iff.mpr ⟨rfl, fun b hb => by
      have h := List.mem_takeWhile_imp hb
      simpa using h⟩
  have hline : line = List.replicate (line.takeWhile (fun c => c = ' ')).length ' '
      ++ line.dropWhile (fun c => c = ' ') := by
    rw [← hsp]; exact (List.takeWhile_append_dropWhile _ _).symm
  have hhead : (line.dropWhile (fun c => c = ' ')).head? ≠ some ' ' := by
    have h := List.head?_dropWhile_not (fun c => decide (c = ' ')) line
    intro h2
    rw [h2] at h
    simp at h
  have hb : ∀ c ∈ line.dropWhile (fun c => c = ' '), c.toNat ≠ 0 ∧ c ≠ ';' ∧ c ≠ '\n' :=
    fun c hc => hl c ((List.dropWhile_sublist _).subset hc)
  have h := stripRun_reads_behind_body before rest
    (line.takeWhile (fun c => c = ' ')).length _ hhead hb
  rw [← hline] at h
  have hlen : (line.length : Int) = ((line.takeWhile (fun c => c = ' ')).length : Int)
      + ((line.dropWhile (fun c => c = ' ')).length : Int) := by
    have := congrArg List.length (List.takeWhile_append_dropWhile (fun c => decide (c = ' ')) line)
    rw [List.length_append] at this
    omega
  rw [hlen]
  exact h

/-- The two models of `strip` agree on the returned string, on lines of each shape the loops
distinguish.  For the lines with a newline the memory is the line and its NUL and nothing else,
so these runs stay inside the line; the last line has no newline, its run reads behind the NUL
and is given one more cell there. -/
theorem stripRun_returns_strip :
    (∀ line ∈ ["CLS\n".toList, "  LD V1, 2 ; c\n".toList, "L1:  \n".toList,
        "JP L1;\n".toList],
      (stripRun [] (lineBuffer line [])).2
        = some (((line.takeWhile (fun c => c = ' ')).length : Int), strip line))
    ∧ (stripRun [] (lineBuffer " DB 0x12".toList [])).2 = none
    ∧ (stripRun [] (lineBuffer " DB 0x12".toList [Char.ofNat 0])).2
        = some (1, strip " DB 0x12".toList) := by
  decide

/-! ## The claims -/

/-- C1 (round trip), evaluated where it breaks: `OR V1, V2` assembles to 0x8121 (row
`OR Vx, Vy -> 8XY1`), and decoding 0x8121 from the state `main` starts with gives
opcode 0x8000, the pattern of `LD Vx, Vy`, not the pattern 0x8001 of the row that
was assembled. The libc parameter plays no part. -/
theorem C1_roundtrip_breaks_on_OR (einval : Bool) :
    assemble einval "OR".toList (some "V1".toList) (some "V2".toList) none [] = 0x8121
    ∧ (decode 0x8121 mainInit).opcode = 0x8000
    ∧ (decode 0x8121 mainInit).opcode ≠ CHIP8_OP_OR := by
  cases einval <;> decide

/-- C2 (first match wins), evaluated where it breaks: for the word 0x8123 the first
row with `word & mask == pattern` is `XOR` (0x8003) but `decode` answers 0x8000; for
0x5121 no row matches but `decode` answers 0x5000 instead of 0xFFFF; for 0x0012 the
row `DB` matches but `decode` answers 0xFFFF. -/
theorem C2_decode_is_not_first_match :
    ((specFirstMatch 0x8123).map (fun e => e.opcode) = some CHIP8_OP_XOR
      ∧ (decode 0x8123 mainInit).opcode = 0x8000)
    ∧ (specFirstMatch 0x5121 = none ∧ (decode 0x5121 mainInit).opcode = 0x5000)
    ∧ ((specFirstMatch 0x0012).map (fun e => e.mnemonic) = some "DB".toList
      ∧ (decode 0x0012 mainInit).opcode = 0xFFFF) := by
  decide

/-- C3 as the code has it. On a source that pass 1 accepts, whatever the table memory held:
a label of fewer than 30 characters whose definition is preceded by `n` instruction lines
(non-blank after stripping, not label definitions; a label line does not advance the
counter) is recorded with the 16-bit counter read as `int16_t`, which is `n` itself for
`n < 0x8000`; and when `n < 0x1000` and no later line defines the same name, `assemble` with
the finished table encodes an address operand naming it as `pattern | n` in `JP`, `CALL`,
`LD I,` and `JP V0,`, the table being the same for a line before and a line after the
definition. `LOOP:`, `JP LOOP` emits the single word 0x1000, and `JP LOOP`, `LOOP:` emits
0x1001. -/
theorem C3_label_addresses (einval : Bool) (uninit : Nat → List Char) (src : List Char)
    (pre post : List (List Char)) (l : List Char)
    (hsplit : getlines src = pre ++ l :: post) (hok : (parse uninit src).1 = true)
    (hl : isLabelLine l = true) (hshort : (labelName l).length < 30) :
    (⟨labelName l, toI16 (instrCount pre)⟩ : chip8_symbol) ∈ (parse uninit src).2
    ∧ (instrCount pre < 0x8000 →
        (⟨labelName l, (instrCount pre : Int)⟩ : chip8_symbol) ∈ (parse uninit src).2)
    ∧ (instrCount pre < 0x1000 →
        (∀ l2 ∈ post, isLabelLine l2 = true → labelName l2 ≠ labelName l) →
        assemble einval "JP".toList (some (labelName l)) none none (parse uninit src).2
          = 0x1000 ||| instrCount pre
        ∧ assemble einval "CALL".toList (some (labelName l)) none none (parse uninit src).2
          = 0x2000 ||| instrCount pre
        ∧ assemble einval "LD".toList (some "I".toList) (some (labelName l)) none
            (parse uninit src).2
          = 0xA000 ||| instrCount pre
        ∧ assemble einval "JP".toList (some "V0".toList) (some (labelName l)) none
            (parse uninit src).2
          = 0xB000 ||| instrCount pre)
    ∧ chip8c_main einval uninit "LOOP:\nJP LOOP\n".toList = some (true, [Emitted.word 0x1000])
    ∧ chip8c_main einval uninit "JP LOOP\nLOOP:\n".toList
        = some (true, [Emitted.word 0x1001]) := by
  have htab := parse_table_split uninit src pre post l hsplit hok hl hshort
  have hsmall : instrCount pre < 0x8000 → toI16 (instrCount pre) = (instrCount pre : Int) := by
    intro h
    unfold toI16
    rw [if_pos (by omega)]
    congr 1
    omega
  have hmem : (⟨labelName l, toI16 (instrCount pre)⟩ : chip8_symbol) ∈ (parse uninit src).2 := by
    rw [htab]; simp
  refine ⟨hmem, ?_, ?_, ?_, ?_⟩
  · intro h
    rw [← hsmall h]
    exact hmem
  · intro hsize hlast
    have hY := parse_later_names uninit post l hshort hlast (instrCount pre) (labelCount pre + 1)
    have hlook := lookup_last (symsFrom uninit pre 0 0)
      (symsFrom uninit post (instrCount pre) (labelCount pre + 1)) (labelName l)
      (toI16 (instrCount pre)) hY
    rw [← htab, hsmall (by omega)] at hlook
    exact assemble_address_symbol einval (parse uninit src).2 (labelName l) (instrCount pre)
      (by omega) hlook
  · rw [chip8c_main_short einval uninit zeroed _ (by decide)]
    cases einval <;> decide
  · rw [chip8c_main_short einval uninit zeroed _ (by decide)]
    cases einval <;> decide

theorem C3_label_addresses_witness :
    (⟨"LOOP".toList, 1⟩ : chip8_symbol) ∈ (parse zeroed "CLS\nLOOP:\nJP LOOP\n".toList).2
    ∧ assemble false "JP".toList (some "LOOP".toList) none none
        (parse zeroed "CLS\nLOOP:\nJP LOOP\n".toList).2 = 0x1001 :=
  have h := C3_label_addresses false zeroed "CLS\nLOOP:\nJP LOOP\n".toList ["CLS\n".toList]
    ["JP LOOP\n".toList] "LOOP:\n".toList (by decide) (by decide) (by decide) (by decide)
  ⟨h.2.1 (by decide), (h.2.2.1 (by decide) (by decide)).1⟩

/-- C3 as stated fails in four ways. With the name `A` defined twice, the first definition is
preceded by no instruction line, yet `JP A` is encoded with address 1, the address of the
last one. A label preceded by 0x1000 instruction lines is recorded with address 0x1000,
but `JP L` then yields 0x1000, the word of `JP 0`, which decodes to address 0. A label
preceded by 0x8000 instruction lines is recorded with address -0x8000. And a label of 30
characters is stored without a NUL: when the byte behind it is not NUL (here `x`), the name
is not found again, and after two instruction lines `JP` to it yields 0x1000 and not 0x1002,
which it does yield when that byte happens to be NUL. -/
theorem C3_counterexample :
    (parse zeroed "A:\nCLS\nA:\nJP A\n".toList = (true, [⟨"A".toList, 0⟩, ⟨"A".toList, 1⟩])
      ∧ instrCount ([] : List (List Char)) = 0
      ∧ assemble false "JP".toList (some "A".toList) none none
          (parse zeroed "A:\nCLS\nA:\nJP A\n".toList).2 ≠ 0x1000 ||| 0
      ∧ chip8c_main false zeroed "A:\nCLS\nA:\nJP A\n".toList
          = some (true, [Emitted.word 0x00E0, Emitted.word 0x1001]))
    ∧ (parse zeroed ((List.replicate 0x1000 "CLS\n".toList).flatten ++ "L:\nJP L\n".toList)
          = (true, [⟨"L".toList, 0x1000⟩])
      ∧ assemble false "JP".toList (some "L".toList) none none [⟨"L".toList, 0x1000⟩] = 0x1000
      ∧ (decode 0x1000 mainInit).slab = 0)
    ∧ parse zeroed ((List.replicate 0x8000 "CLS\n".toList).flatten ++ "L:\n".toList)
          = (true, [⟨"L".toList, -0x8000⟩])
    ∧ (parse (fun _ => "x".toList)
          ("CLS\nCLS\n".toList ++ List.replicate 30 'L' ++ ":\n".toList)
          = (true, [⟨List.replicate 30 'L' ++ "x".toList, 2⟩])
      ∧ chip8c_main false (fun _ => "x".toList)
          ("CLS\nCLS\n".toList ++ List.replicate 30 'L' ++ ":\nJP ".toList
            ++ List.replicate 30 'L' ++ "\n".toList)
          = some (true, [Emitted.word 0x00E0, Emitted.word 0x00E0, Emitted.word 0x1000])
      ∧ chip8c_main false zeroed
          ("CLS\nCLS\n".toList ++ List.replicate 30 'L' ++ ":\nJP ".toList
            ++ List.replicate 30 'L' ++ "\n".toList)
          = some (true, [Emitted.word 0x00E0, Emitted.word 0x00E0, Emitted.word 0x1002])) := by
  refine ⟨⟨by decide, by decide, by decide, by decide⟩, ⟨by decide!, by decide, by decide⟩,
    ?_, ⟨by decide, by decide, by decide⟩⟩
  have h1 : getlines ((List.replicate 0x8000 "CLS\n".toList).flatten ++ "L:\n".toList)
      = List.replicate 0x8000 "CLS\n".toList ++ ["L:\n".toList] :=
    getlines_replicate "CLS".toList (by decide) 0x8000 "L:\n".toList
  rw [parse, h1, parseLoop_replicate _ _ (by decide)]
  decide

/-- C4: for every register `Vx` with `x` in 0..E and every hex literal `tok`, `LD Vx, tok`
assembles to `0x6000 | x << 8 | b` when the value `b` of the literal is at most 0xFF and to
the failure value 0xFFFF when it is larger; `SCD tok` assembles to `0x00C0 | n` when the
value is at most 0xF and fails when it is larger. In particular `LD V3, 0xFF` gives 0x63FF
and `LD V3, 0x100` fails. This holds for either kind of C library and any symbol table. -/
theorem C4_immediate_boundaries (einval : Bool) (symtab : List chip8_symbol) (x : Nat)
    (hx : x ≤ 0xE) (tok : List Char) (hlit : isHexLiteral tok = true) :
    (hexLiteralValue tok ≤ 0xFF →
      assemble einval "LD".toList (some (regName x)) (some tok) none symtab
        = 0x6000 ||| (x <<< 8) ||| hexLiteralValue tok)
    ∧ (0xFF < hexLiteralValue tok →
      assemble einval "LD".toList (some (regName x)) (some tok) none symtab = 0xFFFF)
    ∧ (hexLiteralValue tok ≤ 0xF →
      assemble einval "SCD".toList (some tok) none none symtab = 0x00C0 ||| hexLiteralValue tok)
    ∧ (0xF < hexLiteralValue tok →
      assemble einval "SCD".toList (some tok) none none symtab = 0xFFFF)
    ∧ assemble einval "LD".toList (some "V3".toList) (some "0xFF".toList) none symtab = 0x63FF
    ∧ assemble einval "LD".toList (some "V3".toList) (some "0x100".toList) none symtab = 0xFFFF :=
  ⟨assemble_LD_byte_ok einval symtab x hx tok hlit,
   assemble_LD_byte_big einval symtab x hx tok hlit,
   assemble_SCD_ok einval symtab tok hlit,
   assemble_SCD_big einval symtab tok hlit,
   assemble_LD_byte_ok einval symtab 3 (by decide) "0xFF".toList (by decide) (by decide),
   assemble_LD_byte_big einval symtab 3 (by decide) "0x100".toList (by decide) (by decide)⟩

theorem C4_immediate_boundaries_witness :
    isHexLiteral "1f".toList = true ∧ hexLiteralValue "1f".toList = 0x1F
    ∧ assemble false "LD".toList (some "VE".toList) (some "1f".toList) none [] = 0x6E1F
    ∧ assemble false "SCD".toList (some "1f".toList) none none [] = 0xFFFF :=
  ⟨by decide, by decide,
   (C4_immediate_boundaries false [] 0xE (by decide) "1f".toList (by decide)).1 (by decide),
   (C4_immediate_boundaries false [] 0xE (by decide) "1f".toList (by decide)).2.2.2.1 (by decide)⟩

/-- C5: whatever the out-parameters hold on entry, after `decode` has run on the
fetched word 0xFFFF the opcode is the illegal value 0xFFFF. -/
theorem C5_decode_FFFF_is_illegal (st : DecodeState) :
    (decode 0xFFFF st).opcode = 0xFFFF := by
  by_cases h : st.opcode = 0xFFFF
  · simp [decode, optab, decodeLoop, h]
  · have h2 : ¬ (0xFFFF = st.opcode) := fun e => h e.symm
    simp [decode, optab, decodeLoop, h2, decodeSwitch, CHIP8_OP_MASK_WRD, CHIP8_OP_CLS,
      CHIP8_OP_RET, CHIP8_OP_SCR, CHIP8_OP_SCL, CHIP8_OP_EXIT, CHIP8_OP_LOW, CHIP8_OP_HIGH,
      CHIP8_OP_SCD, CHIP8_OP_JP, CHIP8_OP_CALL, CHIP8_OP_LD_ADDR, CHIP8_OP_JP_V0,
      CHIP8_OP_SE_BYTE, CHIP8_OP_SNE_BYTE, CHIP8_OP_LD_BYTE, CHIP8_OP_ADD_BYTE,
      CHIP8_OP_RND_BYTE, CHIP8_OP_SE_REG, CHIP8_OP_LD_REG, CHIP8_OP_OR, CHIP8_OP_AND,
      CHIP8_OP_XOR, CHIP8_OP_ADD_REG, CHIP8_OP_SUB, CHIP8_OP_SHR, CHIP8_OP_SUBN,
      CHIP8_OP_SHL, CHIP8_OP_SNE_REG, CHIP8_OP_SKP, CHIP8_OP_SKNP, CHIP8_OP_LD_DT,
      CHIP8_OP_LD_KEY, CHIP8_OP_LD_REG_DT, CHIP8_OP_LD_REG_ST, CHIP8_OP_ADD_REG_IX,
      CHIP8_OP_LD_SPRITE, CHIP8_OP_LDS_BCD, CHIP8_OP_LDS_REGS, CHIP8_OP_LD_REGS,
      CHIP8_OP_DRW_NIBBLE]

/-- C6: pass 1 fails exactly when some label-definition line has a reserved name (an `optab`
mnemonic or one of `V0..VF, DT, ST, I, [I], F, B, K`) or a name of more than 30 characters;
`main` hands the failure to `build`, which then writes nothing. Labels `V3` and `JP` fail,
a label of 30 characters is accepted and one of 31 is rejected. None of this depends on
what the uninitialised table memory held (`uninit`). -/
theorem C6_pass1_fails_iff_bad_label (einval : Bool) (uninit : Nat → List Char)
    (src : List Char) :
    ((parse uninit src).1 = false ↔
      ∃ l ∈ getlines src, isLabelLine l = true ∧
        (((∃ e ∈ optab, e.mnemonic = labelName l) ∨ labelName l ∈ specReservedOperands)
          ∨ 30 < (labelName l).length))
    ∧ chip8c_main einval uninit src
        = (if (parse uninit src).1 = false then some (false, [])
           else buildLoop einval (parse uninit src).2 (getlines src) [])
    ∧ (parse uninit "V3:\n".toList).1 = false
    ∧ (parse uninit "JP:\n".toList).1 = false
    ∧ (parse uninit (List.replicate 30 'a' ++ ":\n".toList)).1 = true
    ∧ (parse uninit (List.replicate 31 'a' ++ ":\n".toList)).1 = false := by
  have hres : ∀ s : List Char, reserved s = true ↔
      ((∃ e ∈ optab, e.mnemonic = s) ∨ s ∈ specReservedOperands) := by
    intro s
    have e : specReservedOperands = asm_reserved := by decide
    rw [e]
    simp only [reserved, Bool.or_eq_true, List.any_eq_true, decide_eq_true_eq]
    constructor
    · rintro (⟨x, hx, h⟩ | ⟨x, hx, h⟩)
      · exact Or.inl ⟨x, hx, h.symm⟩
      · exact Or.inr (h ▸ hx)
    · rintro (⟨x, hx, h⟩ | h)
      · exact Or.inl ⟨x, hx, h.symm⟩
      · exact Or.inr ⟨s, h, rfl⟩
  have hz := fun src => parse_fst_uninit uninit zeroed src
  refine ⟨?_, ?_, (hz _).trans (by decide), (hz _).trans (by decide),
    (hz _).trans (by decide), (hz _).trans (by decide)⟩
  · rw [parse, parseLoop_fails_iff]
    simp only [hres]
  · simp only [chip8c_main, build]

/-- C7 (an address operand must resolve), evaluated where it breaks: with an empty
symbol table `JP DONE` is not rejected; `strtol` reads the leading `D` and the
result is 0x100D, on either kind of C library. `JP NOWHERE` itself is rejected only
by a library that reports `EINVAL`; otherwise it assembles to 0x1000. -/
theorem C7_unresolved_address_accepted (einval : Bool) :
    assemble einval "JP".toList (some "DONE".toList) none none [] = 0x100D
    ∧ assemble false "JP".toList (some "NOWHERE".toList) none none [] = 0x1000
    ∧ assemble true "JP".toList (some "NOWHERE".toList) none none [] = 0xFFFF := by
  cases einval <;> decide

/-- C8 (immediates are validated), evaluated where it breaks: in the 8-bit slot of
`LD Vx, byte` the negative literal `-2` is accepted (result 0xFFFE, not the failure
value), and in the 4-bit slot of `SCD` the token `DT` is accepted as 0xD; on either
kind of C library. -/
theorem C8_bad_immediates_accepted (einval : Bool) :
    assemble einval "LD".toList (some "V3".toList) (some "-2".toList) none [] = 0xFFFE
    ∧ assemble einval "SCD".toList (some "DT".toList) none none [] = 0x00CD
    ∧ operandCase einval [] CHIP8_OP_BYTE (some "-2".toList) 0x6300 = some 0xFFFE
    ∧ operandCase einval [] CHIP8_OP_NIBBLE (some "DT".toList) 0x00C0 = some 0x00CD := by
  cases einval <;> decide

/-- C9 (`DB b` for every byte), evaluated where it breaks: `DB 0` encodes to 0, which
`assemble` takes for "no row matched" and turns into the failure value, so that the
run fails and writes nothing; `DB 1` and `DB 0xFF` do emit their byte (whatever the
uninitialised table memory held). -/
theorem C9_DB_zero_fails (einval : Bool) (uninit : Nat → List Char) :
    assemble einval "DB".toList (some "0".toList) none none [] = 0xFFFF
    ∧ chip8c_main einval uninit "DB 0\n".toList = some (false, [])
    ∧ chip8c_main einval uninit "DB 1\n".toList = some (true, [Emitted.byte 1])
    ∧ chip8c_main einval uninit "DB 0xFF\n".toList = some (true, [Emitted.byte 0xFF]) := by
  rw [chip8c_main_short einval uninit zeroed "DB 0\n".toList (by decide),
    chip8c_main_short einval uninit zeroed "DB 1\n".toList (by decide),
    chip8c_main_short einval uninit zeroed "DB 0xFF\n".toList (by decide)]
  cases einval <;> decide

/-- C10 (register-register formats), evaluated where it breaks: with a `strtol` that
leaves `errno` alone when it converts nothing, `SE V1, V2` is taken by the earlier
row `SE Vx, byte` (the token `V2` reads as 0) and assembles to 0x3100, not to
0x5120; the same holds for `LD`, `ADD` and `SNE`. -/
theorem C10_reg_reg_shadowed_by_byte_row :
    assemble false "SE".toList (some "V1".toList) (some "V2".toList) none [] = 0x3100
    ∧ assemble false "LD".toList (some "V1".toList) (some "V2".toList) none [] = 0x6100
    ∧ assemble false "ADD".toList (some "V1".toList) (some "V2".toList) none [] = 0x7100
    ∧ assemble false "SNE".toList (some "V1".toList) (some "V2".toList) none [] = 0x4100
    ∧ CHIP8_OP_SE_REG ||| (1 <<< 8) ||| (2 <<< 4) = 0x5120 := by
  decide

/-- C11 (keyword-operand instructions), evaluated at `V1`: `LD V1, DT` is taken by the earlier
row `LD Vx, byte`, `strtol` reading the `D` of `DT` as 13, and gives 0x610D instead of 0xF107,
on either kind of C library; `LD V1, K` gives 0x6100 or fails, never 0xF10A; `LD V1, [I]`
gives 0xF165 only where `strtol` reports `EINVAL` and 0x6100 otherwise. The six forms with the
keyword first assemble as documented. -/
theorem C11_keyword_forms_at_V1 (einval : Bool) :
    (assemble einval "LD".toList (some "V1".toList) (some "DT".toList) none [] = 0x610D
      ∧ 0xF007 ||| (1 <<< 8) = 0xF107)
    ∧ (assemble false "LD".toList (some "V1".toList) (some "K".toList) none [] = 0x6100
      ∧ assemble true "LD".toList (some "V1".toList) (some "K".toList) none [] = 0xFFFF)
    ∧ (assemble false "LD".toList (some "V1".toList) (some "[I]".toList) none [] = 0x6100
      ∧ assemble true "LD".toList (some "V1".toList) (some "[I]".toList) none [] = 0xF165)
    ∧ assemble einval "LD".toList (some "DT".toList) (some "V1".toList) none [] = 0xF115
    ∧ assemble einval "LD".toList (some "ST".toList) (some "V1".toList) none [] = 0xF118
    ∧ assemble einval "ADD".toList (some "I".toList) (some "V1".toList) none [] = 0xF11E
    ∧ assemble einval "LD".toList (some "F".toList) (some "V1".toList) none [] = 0xF129
    ∧ assemble einval "LD".toList (some "B".toList) (some "V1".toList) none [] = 0xF133
    ∧ assemble einval "LD".toList (some "[I]".toList) (some "V1".toList) none [] = 0xF155 := by
  cases einval <;> decide

/-- C12 (the slot kind `CHIP8_OP_KEY`), as the code has it: the operand `switch` has no `case`
for this kind, so the slot is invalid for every token, `K` included, while the sibling
keyword kinds accept their keyword; the row `LD Vx, K` can therefore never match. -/
theorem C12_key_slot_rejects_everything (einval : Bool) (symtab : List chip8_symbol)
    (op : Option (List Char)) (t : Nat) :
    operandCase einval symtab CHIP8_OP_KEY op t = none
    ∧ operandCase einval symtab CHIP8_OP_KEY (some "K".toList) t = none
    ∧ operandCase einval symtab CHIP8_OP_DT (some "DT".toList) t = some t
    ∧ operandCase einval symtab CHIP8_OP_ST (some "ST".toList) t = some t
    ∧ operandCase einval symtab CHIP8_OP_IX (some "I".toList) t = some t
    ∧ operandCase einval symtab CHIP8_OP_IXR (some "[I]".toList) t = some t
    ∧ operandCase einval symtab CHIP8_OP_BCD (some "B".toList) t = some t
    ∧ operandCase einval symtab CHIP8_OP_SPRITE (some "F".toList) t = some t := by
  refine ⟨rfl, rfl, ?_, ?_, ?_, ?_, ?_, ?_⟩ <;> simp [operandCase]

/-- C14: on a successful run the output of `build` is, for the instruction lines in source
order, one byte (the low byte of the encoding) for a `DB` line and one 16-bit word for any
other, nothing for blank and label lines; so it has one item per instruction line and its
length in bytes is the number of `DB` lines plus twice the number of other instruction
lines. This holds whatever the uninitialised table memory held. -/
theorem C14_output_is_concatenation (einval : Bool) (uninit : Nat → List Char)
    (src : List Char) (out : List Emitted)
    (h : chip8c_main einval uninit src = some (true, out)) :
    out = ((getlines src).filter isInstrLine).filterMap
        (emitLine einval (parse uninit src).2)
    ∧ out.length = instrCount (getlines src)
    ∧ byteLength out = ((getlines src).filter isDBLine).length
        + 2 * ((getlines src).filter (fun l => isInstrLine l && !isDBLine l)).length := by
  simp only [chip8c_main, build] at h
  split_ifs at h with hp
  · simp at h
  · obtain ⟨h1, h2, h3⟩ := buildLoop_ok einval _ _ _ _ h
    simp only [List.nil_append] at h1
    rw [h1]
    exact ⟨rfl, h2, h3⟩

theorem C14_output_is_concatenation_witness :
    chip8c_main false zeroed "DB 0x12\nCLS\nL:\n\nJP L ; again\n".toList
      = some (true, [Emitted.byte 0x12, Emitted.word 0x00E0, Emitted.word 0x1002])
    ∧ byteLength [Emitted.byte 0x12, Emitted.word 0x00E0, Emitted.word 0x1002] = 1 + 2 * 2 :=
  ⟨by decide,
   ((C14_output_is_concatenation false zeroed "DB 0x12\nCLS\nL:\n\nJP L ; again\n".toList
      [Emitted.byte 0x12, Emitted.word 0x00E0, Emitted.word 0x1002] (by decide)).2.2).trans
    (by decide)⟩

/-- C15 (failure is reported), evaluated where it breaks: in the source of the two lines
`<tab>` and `FOO`, pass 1 succeeds and `assemble` returns 0xFFFF for `FOO`, but the tab-only
line comes first, has no token, and sends `opr == NULL` into `strcmp`: the run has no defined
result and reports nothing. Without that line the failure is reported. (The source has no
label, so the uninitialised table memory plays no part.) -/
theorem C15_no_report_after_tokenless_line (einval : Bool) (uninit : Nat → List Char) :
    (parse uninit "\t\nFOO\n".toList).1 = true
    ∧ isInstrLine "\t\n".toList = true
    ∧ lineTokens "\t\n".toList = []
    ∧ isInstrLine "FOO\n".toList = true
    ∧ lineFails einval (parse uninit "\t\nFOO\n".toList).2 "FOO\n".toList = true
    ∧ chip8c_main einval uninit "\t\nFOO\n".toList = none
    ∧ chip8c_main einval uninit "FOO\n".toList = some (false, []) := by
  rw [parse_short uninit zeroed "\t\nFOO\n".toList (by decide),
    chip8c_main_short einval uninit zeroed "\t\nFOO\n".toList (by decide),
    chip8c_main_short einval uninit zeroed "FOO\n".toList (by decide)]
  cases einval <;> decide

/-- C16: every row of `optab` satisfies `(pattern & mask) == pattern`. -/
theorem C16_pattern_within_mask (e : chip8_operations) (he : e ∈ optab) :
    e.opcode &&& e.mask = e.opcode := by
  revert e
  decide

theorem C16_pattern_within_mask_witness :
    (⟨"XOR".toList, 0x8003, 0xF00F, CHIP8_OPR_IX, [CHIP8_OP_REG8, CHIP8_OP_REG4, CHIP8_OP_NONE]⟩
        : chip8_operations) ∈ optab
    ∧ 0x8003 &&& 0xF00F = 0x8003 :=
  ⟨by decide, C16_pattern_within_mask
    ⟨"XOR".toList, 0x8003, 0xF00F, CHIP8_OPR_IX, [CHIP8_OP_REG8, CHIP8_OP_REG4, CHIP8_OP_NONE]⟩
    (by decide)⟩

/-- C17: whenever every 16-bit word matching row `A` of `optab` also matches row `B` and
some word matches `B` but not `A`, row `A` stands before row `B` in the table. So
`DRW Vx, Vy, 0` (mask 0xF00F) stands before `DRW Vx, Vy, nibble` (mask 0xF000), and the
fully specified `00xx` rows stand before `DB`. -/
theorem C17_table_ordering (i j : Nat) (A B : chip8_operations)
    (hA : optab[i]? = some A) (hB : optab[j]? = some B)
    (hsub : ∀ w, w < 65536 → rowMatches A w = true → rowMatches B w = true)
    (hstrict : ∃ w, w < 65536 ∧ rowMatches B w = true ∧ rowMatches A w = false) :
    i < j := by
  by_contra hji
  have hji : j ≤ i := Nat.le_of_not_lt hji
  have hi : i < 42 := by
    have := (List.getElem?_eq_some.mp hA).1
    rwa [optab_length] at this
  have hj : j < 42 := by
    have := (List.getElem?_eq_some.mp hB).1
    rwa [optab_length] at this
  rcases Nat.lt_or_eq_of_le hji with hlt | heq
  · have hk := optab_later_separates i (List.mem_range.mpr hi) j (List.mem_range.mpr hj) hlt
    rw [List.getD_eq_getElem?_getD, List.getD_eq_getElem?_getD, hA, hB] at hk
    simp only [Option.getD_some, separates, Bool.or_eq_true, Bool.and_eq_true,
      decide_eq_true_eq, Bool.not_eq_true'] at hk
    rcases hk with ⟨⟨h1, h2⟩, h3⟩ | ⟨⟨h1, h2⟩, h3⟩
    · rw [hsub _ h1 h2] at h3; exact Bool.noConfusion h3
    · rw [hsub _ h1 h2] at h3; exact Bool.noConfusion h3
  · subst heq
    rw [hA] at hB
    cases hB
    obtain ⟨w, _, h1, h2⟩ := hstrict
    rw [h1] at h2
    exact Bool.noConfusion h2

theorem C17_table_ordering_witness :
    (optab[39]?.map (fun e => (e.mnemonic, e.opcode, e.mask))
        = some ("DRW".toList, 0xD000, 0xF00F)
      ∧ optab[40]?.map (fun e => (e.mnemonic, e.opcode, e.mask))
        = some ("DRW".toList, 0xD000, 0xF000)
      ∧ 39 < 40)
    ∧ (optab[0]?.map (fun e => (e.mnemonic, e.opcode, e.mask))
        = some ("CLS".toList, 0x00E0, 0xFFFF)
      ∧ optab[41]?.map (fun e => (e.mnemonic, e.opcode, e.mask))
        = some ("DB".toList, 0x0000, 0xFF00)
      ∧ 0 < 41) :=
  ⟨⟨by decide, by decide,
    C17_table_ordering 39 40
      ⟨"DRW".toList, 0xD000, 0xF00F, CHIP8_OPR_IX, [CHIP8_OP_REG8, CHIP8_OP_REG4, CHIP8_OP_NULL]⟩
      ⟨"DRW".toList, 0xD000, 0xF000, CHIP8_OPR_IX,
        [CHIP8_OP_REG8, CHIP8_OP_REG4, CHIP8_OP_NIBBLE]⟩
      (by decide) (by decide)
      (fun w _ h => by
        simp only [rowMatches, decide_eq_true_eq] at h ⊢
        exact and_of_and_mask w 0xF00F 0xF000 0xD000 (by decide) h)
      ⟨0xD001, by decide, by decide, by decide⟩⟩,
   ⟨by decide, by decide,
    C17_table_ordering 0 41
      ⟨"CLS".toList, 0x00E0, 0xFFFF, CHIP8_OPR_IX, [CHIP8_OP_NONE, CHIP8_OP_NONE, CHIP8_OP_NONE]⟩
      ⟨"DB".toList, 0x0000, 0xFF00, CHIP8_OPR_DR, [CHIP8_OP_BYTE, CHIP8_OP_NONE, CHIP8_OP_NONE]⟩
      (by decide) (by decide)
      (fun w _ h => by
        simp only [rowMatches, decide_eq_true_eq] at h ⊢
        exact and_of_and_mask w 0xFFFF 0xFF00 0x00E0 (by decide) h)
      ⟨0x0012, by decide, by decide, by decide⟩⟩⟩

/-- C18 (unused fields hold their sentinel), evaluated where it breaks: `decode` resets `regs`
on entry but stores the sentinels of `slab` and `byte` only in its `default:` branch, so a word
accepted at the first table row leaves both as they were. From the state `main` starts with,
`CLS` (0x00E0) is accepted with slab 0 and byte 0; after `JP 0x234`, `CLS` is accepted with
the stale slab 0x234. -/
theorem C18_stale_slab_and_byte :
    decode 0x00E0 mainInit = ⟨0x00E0, 0x000, 0x00, 0xFF⟩
    ∧ decode 0x1234 mainInit = ⟨0x1000, 0x234, 0xFF, 0xFF⟩
    ∧ decode 0x00E0 (decode 0x1234 mainInit) = ⟨0x00E0, 0x234, 0xFF, 0xFF⟩
    ∧ (decode 0x00E0 mainInit).slab ≠ 0xFFF
    ∧ (decode 0x00E0 mainInit).byte ≠ 0xFF := by
  decide

/-- C19: for every fetched word and every value of the out-parameters, a second run of
`decode` on the same word, started from the outputs of the first run, leaves opcode, slab,
byte and regs as the first run left them. -/
theorem C19_decode_twice_same (ix : Nat) (st : DecodeState) :
    (decode ix (decode ix st)).opcode = (decode ix st).opcode
    ∧ (decode ix (decode ix st)).slab = (decode ix st).slab
    ∧ (decode ix (decode ix st)).byte = (decode ix st).byte
    ∧ (decode ix (decode ix st)).regs = (decode ix st).regs := by
  have h : decode ix (decode ix st) = decode ix st := decodeLoop_idem ix optab st
  rw [h]
  exact ⟨rfl, rfl, rfl, rfl⟩

/-- C20 as the code has it, for every input line (as a C string, up to its first NUL).  The
text returned by `strip` has no leading space and contains no `;`, no newline and no NUL; it
has no trailing space when the line holds a `;` or a newline.  Only spaces are stripped: the
line is `k` spaces, the returned text, and then either nothing, or `m` spaces followed by the
first `;` or newline and what comes after it.  So every character other than a space in front
of the first `;` or newline is kept (tabs are never stripped), and on a line without `;` and
newline nothing is cut at the end: the result is the line without its leading spaces. -/
theorem C20_strip_result (line : List Char) :
    (strip line).head? ≠ some ' '
    ∧ ';' ∉ strip line
    ∧ '\n' ∉ strip line
    ∧ ((∀ c ∈ line.takeWhile (fun c => c.toNat ≠ 0), c ≠ ';' ∧ c ≠ '\n')
        ∨ (strip line).getLast? ≠ some ' ')
    ∧ (∃ (k m : Nat) (rest : List Char),
        line.takeWhile (fun c => c.toNat ≠ 0)
          = List.replicate k ' ' ++ strip line ++ List.replicate m ' ' ++ rest
        ∧ (rest = [] → m = 0)
        ∧ (∀ c ∈ rest.head?, c = ';' ∨ c = '\n'))
    ∧ (∀ c ∈ (line.takeWhile (fun c => c.toNat ≠ 0)).takeWhile
          (fun c => c ≠ ';' ∧ c ≠ '\n'),
        c ≠ ' ' → c ∈ strip line)
    ∧ ((∀ c ∈ line.takeWhile (fun c => c.toNat ≠ 0), c ≠ ';' ∧ c ≠ '\n') →
        strip line = (line.takeWhile (fun c => c.toNat ≠ 0)).dropWhile (fun c => c = ' ')) := by
  refine ⟨strip_no_leading_space line, fun h => (strip_mem line _ h).1 rfl,
    fun h => (strip_mem line _ h).2.1 rfl, ?_, strip_decomposition line,
    fun c hc hsp => strip_keeps line c hc hsp, strip_without_terminator line⟩
  by_cases h : ∃ c ∈ line.takeWhile (fun c => c.toNat ≠ 0), c = ';' ∨ c = '\n'
  · exact Or.inr (strip_no_trailing_space line h)
  · left
    intro c hc
    constructor
    · intro e; exact h ⟨c, hc, Or.inl e⟩
    · intro e; exact h ⟨c, hc, Or.inr e⟩

theorem C20_strip_result_witness :
    '\t' ∈ strip "  JP\t1 \t  ; go\n".toList
    ∧ strip "  JP 1  ".toList = "JP 1  ".toList :=
  ⟨(C20_strip_result "  JP\t1 \t  ; go\n".toList).2.2.2.2.2.1 '\t' (by decide) (by decide),
   (C20_strip_result "  JP 1  ".toList).2.2.2.2.2.2 (by decide)⟩

/-- C20 as stated fails on trailing whitespace: a tab before the newline stays, and on a
last line without newline the trailing spaces stay. -/
theorem C20_counterexample :
    (strip "JP 1\t\n".toList).getLast? = some '\t'
    ∧ (strip "JP 1  ".toList).getLast? = some ' '
    ∧ strip "LOOP:\t\n".toList = "LOOP:\t".toList := by
  decide

/-- C21 (refuted): the address slot ORs the 16-bit value of its operand into the word without a
range test (the nibble and byte slots have one), so an accepted instruction need not keep its
pattern in the top nibble.  With no symbol defined, on either kind of C library, `JP 0x2000`
is accepted as 0x3000, `CALL 0xF000` as 0xF000, `LD I, 0x1000` as 0xB000 and
`JP V0, 0x4000` as 0xF000: none is the failure value 0xFFFF and none has the pattern of its
row (0x1000, 0x2000, 0xA000, 0xB000) in its top nibble. -/
theorem C21_address_overflows_top_nibble (einval : Bool) :
    (assemble einval "JP".toList (some "0x2000".toList) none none [] = 0x3000
      ∧ 0x3000 ≠ 0xFFFF ∧ 0x3000 &&& 0xF000 ≠ CHIP8_OP_JP)
    ∧ (assemble einval "CALL".toList (some "0xF000".toList) none none [] = 0xF000
      ∧ 0xF000 ≠ 0xFFFF ∧ 0xF000 &&& 0xF000 ≠ CHIP8_OP_CALL)
    ∧ (assemble einval "LD".toList (some "I".toList) (some "0x1000".toList) none [] = 0xB000
      ∧ 0xB000 ≠ 0xFFFF ∧ 0xB000 &&& 0xF000 ≠ CHIP8_OP_LD_ADDR)
    ∧ (assemble einval "JP".toList (some "V0".toList) (some "0x4000".toList) none [] = 0xF000
      ∧ 0xF000 ≠ 0xFFFF ∧ 0xF000 &&& 0xF000 ≠ CHIP8_OP_JP_V0) := by
  cases einval <;> decide

/-- C22: round trip of the address and byte-immediate formats.  With no symbol defined and
`opcode` not 0xFFFF on entry of `decode`: for a hex literal `ta` of value `a ≤ 0xFFF`,
`JP a`, `CALL a`, `LD I, a` and `JP V0, a` assemble to `0x1000|a`, `0x2000|a`, `0xA000|a`
and `0xB000|a`, and decoding each of these words gives the pattern as `opcode` and `a` as
`slab`; for a register `Vx` with `x ≤ 0xE` and a hex literal `tb` of value `b ≤ 0xFF`,
`SE`, `SNE`, `LD`, `ADD` and `RND` with `Vx, b` assemble to `pattern | x << 8 | b`, and
decoding that word gives the pattern as `opcode`, `b` as `byte` and `x << 4 | 0x0F` as
`regs`. -/
theorem C22_roundtrip_address_and_byte (einval : Bool) (st : DecodeState)
    (hst : st.opcode ≠ 0xFFFF)
    (ta : List Char) (hta : isHexLiteral ta = true) (ha : hexLiteralValue ta ≤ 0xFFF)
    (x : Nat) (hx : x ≤ 0xE)
    (tb : List Char) (htb : isHexLiteral tb = true) (hb : hexLiteralValue tb ≤ 0xFF) :
    (assemble einval "JP".toList (some ta) none none [] = 0x1000 ||| hexLiteralValue ta
      ∧ assemble einval "CALL".toList (some ta) none none [] = 0x2000 ||| hexLiteralValue ta
      ∧ assemble einval "LD".toList (some "I".toList) (some ta) none []
          = 0xA000 ||| hexLiteralValue ta
      ∧ assemble einval "JP".toList (some "V0".toList) (some ta) none []
          = 0xB000 ||| hexLiteralValue ta)
    ∧ (∀ p ∈ [0x1000, 0x2000, 0xA000, 0xB000],
        (decode (p ||| hexLiteralValue ta) st).opcode = p
        ∧ (decode (p ||| hexLiteralValue ta) st).slab = hexLiteralValue ta)
    ∧ (∀ mp ∈ [("SE".toList, 0x3000), ("SNE".toList, 0x4000), ("LD".toList, 0x6000),
          ("ADD".toList, 0x7000), ("RND".toList, 0xC000)],
        assemble einval mp.1 (some (regName x)) (some tb) none []
          = mp.2 ||| (x <<< 8) ||| hexLiteralValue tb
        ∧ (decode (mp.2 ||| (x <<< 8) ||| hexLiteralValue tb) st).opcode = mp.2
        ∧ (decode (mp.2 ||| (x <<< 8) ||| hexLiteralValue tb) st).byte = hexLiteralValue tb
        ∧ (decode (mp.2 ||| (x <<< 8) ||| hexLiteralValue tb) st).regs = (x <<< 4) ||| 0x0F) := by
  refine ⟨?_, ?_, ?_⟩
  · exact assemble_address_of_slot einval [] ta (hexLiteralValue ta)
      (fun t => operandCase_slab_literal einval ta t hta (by omega))
  · intro p hp
    exact decode_address_word p (hexLiteralValue ta) st hp ha hst
  · intro mp hmp
    have hdec : ∀ p ∈ [CHIP8_OP_SE_BYTE, CHIP8_OP_SNE_BYTE, CHIP8_OP_LD_BYTE, CHIP8_OP_ADD_BYTE,
        CHIP8_OP_RND_BYTE], _ :=
      fun p hp => decode_byte_word p x (hexLiteralValue tb) st hp hx hb hst
    simp only [List.mem_cons, List.mem_singleton, List.not_mem_nil, or_false] at hmp
    rcases hmp with h | h | h | h | h <;> subst h
    · exact ⟨assemble_reg_byte einval [] _ _ CHIP8_OP_MASK_GSN x tb (by decide) (by decide)
        hx htb hb, hdec _ (by decide)⟩
    · exact ⟨assemble_reg_byte einval [] _ _ CHIP8_OP_MASK_GSN x tb (by decide) (by decide)
        hx htb hb, hdec _ (by decide)⟩
    · exact ⟨assemble_LD_byte_ok einval [] x hx tb htb hb, hdec _ (by decide)⟩
    · exact ⟨assemble_reg_byte einval [] _ _ CHIP8_OP_MASK_GSN x tb (by decide) (by decide)
        hx htb hb, hdec _ (by decide)⟩
    · exact ⟨assemble_reg_byte einval [] _ _ CHIP8_OP_MASK_GSN x tb (by decide) (by decide)
        hx htb hb, hdec _ (by decide)⟩

theorem C22_roundtrip_address_and_byte_witness :
    assemble false "JP".toList (some "0x2A4".toList) none none [] = 0x12A4
    ∧ (decode 0x12A4 mainInit).opcode = 0x1000
    ∧ (decode 0x12A4 mainInit).slab = 0x2A4
    ∧ assemble false "ADD".toList (some "V3".toList) (some "0x7F".toList) none [] = 0x737F
    ∧ (decode 0x737F mainInit).opcode = 0x7000
    ∧ (decode 0x737F mainInit).byte = 0x7F
    ∧ (decode 0x737F mainInit).regs = 0x3F :=
  have h := C22_roundtrip_address_and_byte false mainInit (by decide)
    "0x2A4".toList (by decide) (by decide) 3 (by decide) "0x7F".toList (by decide) (by decide)
  have ha := h.2.1 0x1000 (by decide)
  have hb := h.2.2 ("ADD".toList, 0x7000) (by decide)
  ⟨h.1.1, ha.1, ha.2, hb.1, hb.2.1, hb.2.2.1, hb.2.2.2⟩

/-- C23: for every fetched word whose top nibble is 8 and whose bits 4-11 are not all zero,
`decode`, entered with the opcode out-parameter different from 0xFFFF, returns opcode 0x8000
(`LD Vx, Vy`) and regs equal to bits 4-11 of the word, whatever the low nibble is. -/
theorem C23_nibble8_decodes_as_LD (ix : Nat) (st : DecodeState)
    (htop : ix &&& 0xF000 = 0x8000) (hxy : ix &&& 0x0FF0 ≠ 0) (hst : st.opcode ≠ 0xFFFF) :
    (decode ix st).opcode = 0x8000
    ∧ (decode ix st).regs = (ix &&& 0x0FF0) >>> 4 := by
  have hlt : ((0x0FF0 &&& ix) >>> 4) % 256 = (ix &&& 0x0FF0) >>> 4 := by
    rw [Nat.and_comm]
    apply Nat.mod_eq_of_lt
    have h1 : ix &&& 0x0FF0 ≤ 0x0FF0 := Nat.and_le_right
    rw [Nat.shiftRight_eq_div_pow]
    omega
  have hmask : ∀ r ∈ optab.take 8, (r.mask &&& ix) &&& 0xF000 = 0x8000
      ∧ (r.mask &&& ix) &&& 0x0FF0 = ix &&& 0x0FF0 := by
    intro r hr
    rcases optab_take8_masks r hr with hm | hm <;> rw [hm]
    · exact ⟨(and_and_of_mask _ _ _ (by decide)).trans htop, and_and_of_mask _ _ _ (by decide)⟩
    · exact ⟨(and_and_of_mask _ _ _ (by decide)).trans htop, and_and_of_mask _ _ _ (by decide)⟩
  have he : CHIP8_OP_MASK_GSN &&& ix = CHIP8_OP_LD_REG := by
    rw [Nat.and_comm]; exact htop
  unfold decode
  rw [optab_split]
  apply decodeLoop_first_hit ix
    (fun s => s.opcode = 0x8000 ∧ s.regs = (ix &&& 0x0FF0) >>> 4)
  · intro r hr hc s
    exfalso
    have h1 := decodeConstants_nibble8 _ (decodeCase_mem _ hc) (hmask r hr).1
    rw [(hmask r hr).2] at h1
    exact hxy h1
  · intro r hr hff
    have h1 := (hmask r hr).1
    rw [hff] at h1
    revert h1
    decide
  · show decodeCase (CHIP8_OP_MASK_GSN &&& ix) = true
    rw [he]; decide
  · intro s
    show (decodeSwitch ix CHIP8_OP_MASK_GSN (CHIP8_OP_MASK_GSN &&& ix) s).opcode = 0x8000 ∧ _
    rw [he, decodeSwitch_LD_REG]
    exact ⟨rfl, hlt⟩
  · exact fun h => hst h.symm

theorem C23_nibble8_decodes_as_LD_witness :
    (decode 0x8123 mainInit).opcode = 0x8000 ∧ (decode 0x8123 mainInit).regs = 0x12 :=
  C23_nibble8_decodes_as_LD 0x8123 mainInit (by decide) (by decide) (by decide)

/-- C24: entered with the opcode out-parameter equal to 0xFFFF, `decode` leaves opcode, slab
and byte as they were and only sets regs to 0xFF, whatever the fetched word is. -/
theorem C24_illegal_is_sticky (ix : Nat) (st : DecodeState) (h : st.opcode = 0xFFFF) :
    (decode ix st).opcode = st.opcode
    ∧ (decode ix st).slab = st.slab
    ∧ (decode ix st).byte = st.byte
    ∧ (decode ix st).regs = 0xFF := by
  have hd : decode ix st = { st with regs := 0xFF } :=
    decodeLoop_break ix optab 0xFFFF { st with regs := 0xFF } h.symm
  rw [hd]
  exact ⟨rfl, rfl, rfl, rfl⟩

theorem C24_illegal_is_sticky_witness :
    decode 0x00E0 ⟨0xFFFF, 0x123, 0x45, 0x67⟩ = ⟨0xFFFF, 0x123, 0x45, 0xFF⟩ := by
  have h := C24_illegal_is_sticky 0x00E0 ⟨0xFFFF, 0x123, 0x45, 0x67⟩ rfl
  cases hd : decode 0x00E0 ⟨0xFFFF, 0x123, 0x45, 0x67⟩ with
  | mk o s b r =>
    rw [hd] at h
    obtain ⟨h1, h2, h3, h4⟩ := h
    simp only at h1 h2 h3 h4
    subst h1 h2 h3 h4
    rfl

/-- C25 (refuted): `strip` does not stay inside the line, whatever lies in front of the line
(`before`) and behind its NUL (`rest`).  On every line that has nothing but spaces in front of
its `;` or newline (blank lines, comment-only lines) the backward loop reads position -1, the
cell in front of the first character.  On every line without `;` and newline (a last line
without newline) the zeroing loop reads the position behind the NUL.  The cells outside are
also written: with a space in front of the blank line, position -1 is set to NUL; with a
non-NUL cell behind the NUL of `CLS`, position 4 is. -/
theorem C25_strip_leaves_the_line (before rest : List Char) :
    (∀ (k : Nat) (c : Char) (t : List Char), c = ';' ∨ c = '\n' →
      Access.read (-1)
        ∈ (stripRun before (lineBuffer (List.replicate k ' ' ++ c :: t) rest)).1)
    ∧ (∀ line : List Char, (∀ c ∈ line, c.toNat ≠ 0 ∧ c ≠ ';' ∧ c ≠ '\n') →
      Access.read (line.length + 1) ∈ (stripRun before (lineBuffer line rest)).1)
    ∧ Access.write (-1) ∈ (stripRun " x".toList (lineBuffer "\n".toList [])).1
    ∧ Access.write 4 ∈ (stripRun [] (lineBuffer "CLS".toList ['A', Char.ofNat 0])).1 :=
  ⟨fun k c t hc => stripRun_reads_before before rest k c t hc,
   fun line hl => stripRun_reads_behind before rest line hl, by decide, by decide⟩

theorem C25_strip_leaves_the_line_witness :
    Access.read (-1) ∈ (stripRun [] (lineBuffer "\n".toList [])).1
    ∧ Access.read (-1) ∈ (stripRun [] (lineBuffer "  ; note\n".toList [])).1
    ∧ Access.read 4 ∈ (stripRun [] (lineBuffer "CLS".toList [])).1 :=
  ⟨(C25_strip_leaves_the_line [] []).1 0 '\n' [] (Or.inr rfl),
   (C25_strip_leaves_the_line [] []).1 2 ';' " note\n".toList (Or.inl rfl),
   (C25_strip_leaves_the_line [] []).2.1 "CLS".toList (by decide)⟩

end Chip8
